import Mathlib

/-!
Verification development for the saltpack-style encryption demo
(`src/encrypt.py`).  The development shallowly embeds the program:

* bytes are modelled as `List Nat`;
* the msgpack encoding used by `umsgpack.packb` / `umsgpack.unpack` is
  modelled by an executable self-delimiting binary encoding of a `Value`
  type covering exactly the shapes the program uses (unsigned integers,
  byte strings, strings, arrays, string-keyed maps);
* the NaCl primitives (`crypto_scalarmult_base`, `crypto_box`,
  `crypto_secretbox`, `hmac-sha512`) are external library functions, so
  they are modelled from the spec as deterministic executable functions
  with the interface properties the spec assumes (round-trips, a 16-byte
  leading authenticator, keyed hashes);
* the randomness `os.urandom` draws are threaded in explicitly through a
  `Urandom` record.

Everything is executable, so concrete blobs can be evaluated inside
proofs by `decide`/`rfl`.
-/

/-! ### Self-delimiting varint used by the modelled binary encoding -/

/-- Fuel-driven little-endian base-128 varint encoder (7 data bits per
digit, high bit set on all but the final digit). -/
def encNatAux : Nat → Nat → List Nat
  | 0, n => [n]
  | fuel+1, n => if n < 128 then [n] else (n % 128 + 128) :: encNatAux fuel (n / 128)

/-- Self-delimiting encoding of a natural number. -/
def encNat (n : Nat) : List Nat := encNatAux n n

theorem encNatAux_small {n : Nat} (fuel : Nat) (h : n < 128) : encNatAux fuel n = [n] := by
  cases fuel with
  | zero => rfl
  | succ f => simp [encNatAux, h]

theorem encNatAux_irrel : ∀ (fuel₁ : Nat) {n : Nat} (fuel₂ : Nat),
    n ≤ fuel₁ → n ≤ fuel₂ → encNatAux fuel₁ n = encNatAux fuel₂ n := by
  intro fuel₁
  induction fuel₁ with
  | zero =>
    intro n fuel₂ h1 _
    have hn : n = 0 := Nat.le_zero.mp h1
    subst hn
    rw [encNatAux_small 0 (by omega), encNatAux_small fuel₂ (by omega)]
  | succ f ih =>
    intro n fuel₂ h1 h2
    by_cases hs : n < 128
    · rw [encNatAux_small _ hs, encNatAux_small _ hs]
    · have hn1 : 1 ≤ n := by omega
      cases fuel₂ with
      | zero => omega
      | succ f₂ =>
        have hdiv : n / 128 < n := Nat.div_lt_self (by omega) (by omega)
        simp only [encNatAux, if_neg hs]
        have := ih (n := n / 128) f₂ (by omega) (by omega)
        rw [this]

/-- Unfolding equation for `encNat`. -/
theorem encNat_eq (n : Nat) :
    encNat n = if n < 128 then [n] else (n % 128 + 128) :: encNat (n / 128) := by
  by_cases hs : n < 128
  · simp [encNat, encNatAux_small _ hs, hs]
  · have hn1 : 1 ≤ n := by omega
    obtain ⟨k, rfl⟩ : ∃ k, n = k + 1 := ⟨n - 1, by omega⟩
    simp only [encNat, encNatAux, if_neg hs]
    have hdiv : (k + 1) / 128 < k + 1 := Nat.div_lt_self (by omega) (by omega)
    rw [encNatAux_irrel k ((k+1)/128) (by omega) (le_refl _)]

/-- Self-delimiting varint decoder, returning the value and the rest of
the stream. -/
def decNat : List Nat → Option (Nat × List Nat)
  | [] => none
  | d :: rest =>
    if d < 128 then some (d, rest)
    else
      match decNat rest with
      | some (m, r) => some ((d - 128) + 128 * m, r)
      | none => none

theorem decNat_encNat (n : Nat) : ∀ rest : List Nat, decNat (encNat n ++ rest) = some (n, rest) := by
  induction n using Nat.strong_induction_on with
  | _ n ih =>
    intro rest
    rw [encNat_eq]
    by_cases hs : n < 128
    · simp [hs, decNat]
    · have hdiv : n / 128 < n := Nat.div_lt_self (by omega) (by omega)
      simp only [if_neg hs, List.cons_append, decNat, if_neg (by omega : ¬ n % 128 + 128 < 128)]
      rw [ih (n / 128) hdiv rest]
      have hmd := Nat.mod_add_div n 128
      simp only [Option.some.injEq, Prod.mk.injEq]
      exact ⟨by omega, trivial⟩

theorem encNat_digit_lt (n : Nat) : ∀ d ∈ encNat n, d < 256 := by
  induction n using Nat.strong_induction_on with
  | _ n ih =>
    intro d hd
    rw [encNat_eq] at hd
    by_cases hs : n < 128
    · simp [hs] at hd; omega
    · have hdiv : n / 128 < n := Nat.div_lt_self (by omega) (by omega)
      simp only [if_neg hs, List.mem_cons] at hd
      rcases hd with h | h
      · have := Nat.mod_lt n (y := 128) (by omega); omega
      · exact ih (n / 128) hdiv d h

theorem encNat_ne_nil (n : Nat) : encNat n ≠ [] := by
  rw [encNat_eq]
  by_cases hs : n < 128 <;> simp [hs]

theorem encNat_inj : Function.Injective encNat := by
  intro a b h
  have ha := decNat_encNat a []
  have hb := decNat_encNat b []
  rw [← h] at hb
  rw [ha] at hb
  exact (Prod.mk.injEq _ _ _ _ ▸ (Option.some.injEq _ _ ▸ hb)).1

/-! ### Injective packing of byte lists into a single natural number -/

/-- Big-endian-style accumulation of base-256 digits with a sentinel
leading 1, so that digit lists of different lengths land in disjoint
ranges. -/
def leVal : List Nat → Nat
  | [] => 1
  | d :: rest => leVal rest * 256 + d

theorem leVal_pos (ds : List Nat) : 1 ≤ leVal ds := by
  induction ds with
  | nil => simp [leVal]
  | cons d rest ih => simp only [leVal]; omega

theorem leVal_inj : ∀ ds es : List Nat, (∀ d ∈ ds, d < 256) → (∀ e ∈ es, e < 256) →
    leVal ds = leVal es → ds = es := by
  intro ds
  induction ds with
  | nil =>
    intro es _ hes h
    cases es with
    | nil => rfl
    | cons e es' =>
      exfalso
      simp only [leVal] at h
      have := leVal_pos es'
      omega
  | cons d ds' ih =>
    intro es hds hes h
    cases es with
    | nil =>
      exfalso
      simp only [leVal] at h
      have := leVal_pos ds'
      omega
    | cons e es' =>
      simp only [leVal] at h
      have hd : d < 256 := hds d (by simp)
      have he : e < 256 := hes e (by simp)
      have hde : d = e := by omega
      have htail : leVal ds' = leVal es' := by omega
      have := ih es' (fun x hx => hds x (by simp [hx])) (fun x hx => hes x (by simp [hx])) htail
      rw [hde, this]

theorem flatten_encNat_inj : ∀ l₁ l₂ : List Nat,
    (l₁.map encNat).flatten = (l₂.map encNat).flatten → l₁ = l₂ := by
  intro l₁
  induction l₁ with
  | nil =>
    intro l₂ h
    cases l₂ with
    | nil => rfl
    | cons b l₂' =>
      exfalso
      simp only [List.map_nil, List.flatten_nil, List.map_cons, List.flatten_cons] at h
      have := encNat_ne_nil b
      cases hb : encNat b with
      | nil => exact this hb
      | cons x xs => rw [hb] at h; simp at h
  | cons a l₁' ih =>
    intro l₂ h
    cases l₂ with
    | nil =>
      exfalso
      simp only [List.map_cons, List.flatten_cons, List.map_nil, List.flatten_nil] at h
      have := encNat_ne_nil a
      cases ha : encNat a with
      | nil => exact this ha
      | cons x xs => rw [ha] at h; simp at h
    | cons b l₂' =>
      simp only [List.map_cons, List.flatten_cons] at h
      have h₁ := decNat_encNat a ((l₁'.map encNat).flatten)
      have h₂ := decNat_encNat b ((l₂'.map encNat).flatten)
      rw [h] at h₁
      rw [h₂] at h₁
      have hab : b = a ∧ (l₂'.map encNat).flatten = (l₁'.map encNat).flatten := by
        constructor
        · exact ((Prod.mk.injEq _ _ _ _).mp (Option.some.injEq _ _ ▸ h₁)).1
        · exact ((Prod.mk.injEq _ _ _ _).mp (Option.some.injEq _ _ ▸ h₁)).2
      rw [hab.1, ih l₂' hab.2.symm]

/-- Injective packing of an arbitrary byte list into a `Nat`; used as the
"ideal hash" core of the modelled MAC and authenticator primitives. -/
def byteListToNat (l : List Nat) : Nat := leVal ((l.map encNat).flatten)

theorem byteListToNat_inj : Function.Injective byteListToNat := by
  intro a b h
  apply flatten_encNat_inj
  apply leVal_inj _ _ ?_ ?_ h
  · intro d hd
    rw [List.mem_flatten] at hd
    obtain ⟨l, hl, hdl⟩ := hd
    rw [List.mem_map] at hl
    obtain ⟨n, _, rfl⟩ := hl
    exact encNat_digit_lt n d hdl
  · intro d hd
    rw [List.mem_flatten] at hd
    obtain ⟨l, hl, hdl⟩ := hd
    rw [List.mem_map] at hl
    obtain ⟨n, _, rfl⟩ := hl
    exact encNat_digit_lt n d hdl

/-! ### Fixed-width big-endian integers (`int.to_bytes(len, 'big')`) -/

/-- Model of Python's `n.to_bytes(len, byteorder='big')`
(src/encrypt.py:108, 127, 169, 184): fixed-width big-endian byte string. -/
def to_bytes : Nat → Nat → List Nat
  | 0, _ => []
  | l+1, n => to_bytes l (n / 256) ++ [n % 256]

theorem to_bytes_length : ∀ (l n : Nat), (to_bytes l n).length = l := by
  intro l
  induction l with
  | zero => intro n; rfl
  | succ k ih => intro n; simp [to_bytes, ih]

theorem to_bytes_inj : ∀ (l a b : Nat), a < 256 ^ l → b < 256 ^ l →
    to_bytes l a = to_bytes l b → a = b := by
  intro l
  induction l with
  | zero =>
    intro a b ha hb _
    simp [Nat.pow_zero, Nat.lt_one_iff] at ha hb
    omega
  | succ k ih =>
    intro a b ha hb h
    simp only [to_bytes] at h
    have hlen : (to_bytes k (a / 256)).length = (to_bytes k (b / 256)).length := by
      simp [to_bytes_length]
    obtain ⟨h₁, h₂⟩ := List.append_inj h hlen
    have hmod : a % 256 = b % 256 := by simpa using h₂
    have hda : a / 256 < 256 ^ k := by
      rw [Nat.div_lt_iff_lt_mul (by omega)]
      calc a < 256 ^ (k+1) := ha
        _ = 256 ^ k * 256 := by ring
    have hdb : b / 256 < 256 ^ k := by
      rw [Nat.div_lt_iff_lt_mul (by omega)]
      calc b < 256 ^ (k+1) := hb
        _ = 256 ^ k * 256 := by ring
    have hdiv := ih (a / 256) (b / 256) hda hdb h₁
    omega

/-! ### Modelled NaCl primitives

Modelled from the spec (§6 "External interfaces"): the raw primitives
(`nacl.bindings.crypto_secretbox`, `crypto_box`, `crypto_scalarmult_base`
and `hmac`-SHA-512) are consumed from an external library and are not
part of the repository source.  They are modelled as deterministic
executable functions exhibiting the interface the spec relies on:
symmetric authenticated encryption whose ciphertext starts with a
16-byte authenticator, sender-authenticated public-key encryption, and a
keyed hash truncatable to 16 bytes. -/

/-- Modelled from the spec: one keystream byte of the symmetric cipher,
a deterministic function of key, nonce and position. -/
def ksByte (key nonce : List Nat) (i : Nat) : Nat := byteListToNat (key ++ nonce ++ [i]) % 256

/-- XOR of a byte string against the keystream starting at position `i`;
applying it twice restores the input. -/
def xorStream (key nonce : List Nat) : Nat → List Nat → List Nat
  | _, [] => []
  | i, b :: bs => (b ^^^ ksByte key nonce i) :: xorStream key nonce (i+1) bs

theorem xorStream_xorStream (key nonce : List Nat) :
    ∀ (i : Nat) (m : List Nat), xorStream key nonce i (xorStream key nonce i m) = m := by
  intro i m
  induction m generalizing i with
  | nil => rfl
  | cons b bs ih =>
    simp [xorStream, Nat.xor_cancel_right, ih (i+1)]

theorem xorStream_length (key nonce : List Nat) :
    ∀ (i : Nat) (m : List Nat), (xorStream key nonce i m).length = m.length := by
  intro i m
  induction m generalizing i with
  | nil => rfl
  | cons b bs ih => simp [xorStream, ih]

/-- Modelled from the spec: the Poly1305-style authenticator value over a
ciphertext body, keyed by key and nonce.  Injective in the body for a
fixed key and nonce (an idealised one-time MAC). -/
def authTag (key nonce body : List Nat) : Nat := byteListToNat (key ++ nonce ++ body)

theorem authTag_inj_body (key nonce body body' : List Nat)
    (h : authTag key nonce body = authTag key nonce body') : body = body' := by
  have := byteListToNat_inj h
  simpa using this

/-- The 16-byte leading authenticator block of the modelled secretbox. -/
def tag16 (key nonce body : List Nat) : List Nat :=
  authTag key nonce body :: List.replicate 15 0

theorem tag16_length (key nonce body : List Nat) : (tag16 key nonce body).length = 16 := by
  simp [tag16]

/-- Modelled from the spec: `nacl.bindings.crypto_secretbox` — symmetric
authenticated encryption; the ciphertext is a 16-byte authenticator
followed by the encrypted body. -/
def crypto_secretbox (message nonce key : List Nat) : List Nat :=
  tag16 key nonce (xorStream key nonce 0 message) ++ xorStream key nonce 0 message

/-- Modelled from the spec: `nacl.bindings.crypto_secretbox_open` —
verifies the leading 16-byte authenticator before decrypting; returns
`none` (the primitive authentication failure) otherwise. -/
def crypto_secretbox_open (ciphertext nonce key : List Nat) : Option (List Nat) :=
  if ciphertext.length < 16 then none
  else if ciphertext.take 16 = tag16 key nonce (ciphertext.drop 16) then
    some (xorStream key nonce 0 (ciphertext.drop 16))
  else none

theorem crypto_secretbox_length (message nonce key : List Nat) :
    (crypto_secretbox message nonce key).length = 16 + message.length := by
  simp [crypto_secretbox, tag16, xorStream_length]
  omega

theorem crypto_secretbox_open_secretbox (message nonce key : List Nat) :
    crypto_secretbox_open (crypto_secretbox message nonce key) nonce key = some message := by
  have hlen : (tag16 key nonce (xorStream key nonce 0 message)).length = 16 :=
    tag16_length _ _ _
  have htake : (crypto_secretbox message nonce key).take 16 =
      tag16 key nonce (xorStream key nonce 0 message) := by
    rw [crypto_secretbox, List.take_left' hlen]
  have hdrop : (crypto_secretbox message nonce key).drop 16 = xorStream key nonce 0 message := by
    rw [crypto_secretbox, List.drop_left' hlen]
  rw [crypto_secretbox_open, if_neg, hdrop, htake, if_pos rfl, xorStream_xorStream]
  rw [crypto_secretbox_length]
  omega

/-- Modelled from the spec: `nacl.bindings.crypto_scalarmult_base`
(derive a public key from a private scalar); injective. -/
def crypto_scalarmult_base (sk : Nat) : List Nat := encNat sk

theorem crypto_scalarmult_base_inj : Function.Injective crypto_scalarmult_base :=
  fun _ _ h => encNat_inj h

/-- Recover the scalar of a modelled public key (0 for junk inputs). -/
def pkVal (pk : List Nat) : Nat :=
  match decNat pk with
  | some p => p.1
  | none => 0

theorem pkVal_base (sk : Nat) : pkVal (crypto_scalarmult_base sk) = sk := by
  have := decNat_encNat sk []
  rw [List.append_nil] at this
  simp [pkVal, crypto_scalarmult_base, this]

/-- Modelled from the spec: the Diffie-Hellman shared key of a box; the
symmetric formula `sk * pkVal pk` gives the commutativity
`shared(skA, pub skB) = shared(skB, pub skA)` that real curve scalar
multiplication provides. -/
def box_key (sk : Nat) (pk : List Nat) : List Nat := encNat (sk * pkVal pk)

/-- Modelled from the spec: `nacl.bindings.crypto_box` — sender-
authenticated public-key encryption, a secretbox under the shared key. -/
def crypto_box (message nonce : List Nat) (sk : Nat) (pk : List Nat) : List Nat :=
  crypto_secretbox message nonce (box_key sk pk)

/-- Modelled from the spec: `nacl.bindings.crypto_box_open`. -/
def crypto_box_open (ciphertext nonce : List Nat) (sk : Nat) (pk : List Nat) :
    Option (List Nat) :=
  crypto_secretbox_open ciphertext nonce (box_key sk pk)

theorem crypto_box_open_box (message nonce : List Nat) (skS skR : Nat) :
    crypto_box_open (crypto_box message nonce skS (crypto_scalarmult_base skR)) nonce skR
      (crypto_scalarmult_base skS) = some message := by
  rw [crypto_box, crypto_box_open, box_key, box_key, pkVal_base, pkVal_base, Nat.mul_comm]
  exact crypto_secretbox_open_secretbox _ _ _

/-- Modelled from the spec: the 64-byte digest of `hmac.new(key,
digestmod='sha512')` over `data`; an idealised keyed hash, injective in
`data` for a fixed key even after truncation to 16 bytes. -/
def hmac_digest (key data : List Nat) : List Nat :=
  byteListToNat (key ++ data) :: List.replicate 63 0

theorem hmac_digest_take16_inj (key data data' : List Nat)
    (h : (hmac_digest key data).take 16 = (hmac_digest key data').take 16) : data = data' := by
  simp only [hmac_digest, List.take_succ_cons, List.cons.injEq] at h
  have := byteListToNat_inj h.1
  simpa using this

/-! ### The modelled msgpack value type and binary encoding

Modelled from the spec (§4.1): the binary encoding consumed from
`umsgpack` is an external library; the spec only requires "one
consistent self-describing binary encoding" supporting unsigned
integers, byte strings, sequences and maps.  `Value` covers those
shapes; `encValue` is a deterministic, self-delimiting, executable
encoding of them (`umsgpack.packb`), and `decodeAux`/`unpack_value`
the matching stream decoder (`umsgpack.unpack`/`unpackb`). -/

mutual
inductive Value where
  | int : Nat → Value
  | bytes : List Nat → Value
  | str : List Nat → Value
  | arr : ValueList → Value
  | map : PairList → Value
inductive ValueList where
  | nil : ValueList
  | cons : Value → ValueList → ValueList
inductive PairList where
  | nil : PairList
  | cons : Value → Value → PairList → PairList
end

/-- Number of elements of an encoded array. -/
def ValueList.length : ValueList → Nat
  | .nil => 0
  | .cons _ rest => rest.length + 1

/-- Number of key/value pairs of an encoded map. -/
def PairList.length : PairList → Nat
  | .nil => 0
  | .cons _ _ rest => rest.length + 1

mutual
/-- Modelled `umsgpack.packb`: tagged, length-prefixed self-delimiting
binary encoding of one value. -/
def encValue : Value → List Nat
  | .int n => 0 :: encNat n
  | .bytes b => 1 :: (encNat b.length ++ b)
  | .str s => 2 :: (encNat s.length ++ s)
  | .arr vs => 3 :: (encNat vs.length ++ encValueList vs)
  | .map kvs => 4 :: (encNat kvs.length ++ encPairList kvs)
termination_by structural v => v
def encValueList : ValueList → List Nat
  | .nil => []
  | .cons v rest => encValue v ++ encValueList rest
termination_by structural vs => vs
def encPairList : PairList → List Nat
  | .nil => []
  | .cons k v rest => encValue k ++ encValue v ++ encPairList rest
termination_by structural ps => ps
end

mutual
/-- Fuel needed by the decoder to reassemble a value. -/
def Value.fuelFor : Value → Nat
  | .int _ => 1
  | .bytes _ => 1
  | .str _ => 1
  | .arr vs => vs.fuelFor + 1
  | .map kvs => kvs.fuelFor + 1
termination_by structural v => v
def ValueList.fuelFor : ValueList → Nat
  | .nil => 1
  | .cons v rest => Nat.max v.fuelFor rest.fuelFor + 1
termination_by structural vs => vs
def PairList.fuelFor : PairList → Nat
  | .nil => 1
  | .cons k v rest => Nat.max k.fuelFor (Nat.max v.fuelFor rest.fuelFor) + 1
termination_by structural ps => ps
end

/-- Decoder mode: a single value, the `c` remaining elements of an
array, or the `c` remaining pairs of a map. -/
inductive DecMode where
  | one : DecMode
  | many : Nat → DecMode
  | pairs : Nat → DecMode

/-- Fuel-driven stream decoder for the modelled encoding.  In `.many c`
mode it returns `.arr` of the `c` decoded values, in `.pairs c` mode
`.map` of the `c` decoded pairs. -/
def decodeAux : Nat → DecMode → List Nat → Option (Value × List Nat)
  | 0, _, _ => none
  | _+1, .one, [] => none
  | f+1, .one, t :: rest =>
    if t = 0 then
      match decNat rest with
      | some (n, r) => some (.int n, r)
      | none => none
    else if t = 1 then
      match decNat rest with
      | some (len, r) => if len ≤ r.length then some (.bytes (r.take len), r.drop len) else none
      | none => none
    else if t = 2 then
      match decNat rest with
      | some (len, r) => if len ≤ r.length then some (.str (r.take len), r.drop len) else none
      | none => none
    else if t = 3 then
      match decNat rest with
      | some (cnt, r) => decodeAux f (.many cnt) r
      | none => none
    else if t = 4 then
      match decNat rest with
      | some (cnt, r) => decodeAux f (.pairs cnt) r
      | none => none
    else none
  | _+1, .many 0, stream => some (.arr .nil, stream)
  | f+1, .many (c+1), stream =>
    match decodeAux f .one stream with
    | some (v, r) =>
      match decodeAux f (.many c) r with
      | some (.arr vs, r₂) => some (.arr (.cons v vs), r₂)
      | _ => none
    | none => none
  | _+1, .pairs 0, stream => some (.map .nil, stream)
  | f+1, .pairs (c+1), stream =>
    match decodeAux f .one stream with
    | some (k, r) =>
      match decodeAux f .one r with
      | some (v, r₂) =>
        match decodeAux f (.pairs c) r₂ with
        | some (.map ps, r₃) => some (.map (.cons k v ps), r₃)
        | _ => none
      | none => none
    | none => none

theorem fuelFor_pos :
    (∀ v : Value, 1 ≤ v.fuelFor) ∧ (∀ vs : ValueList, 1 ≤ vs.fuelFor) ∧
    (∀ ps : PairList, 1 ≤ ps.fuelFor) := by
  refine ⟨fun v => ?_, fun vs => ?_, fun ps => ?_⟩
  · cases v <;> simp [Value.fuelFor]
  · cases vs <;> simp [ValueList.fuelFor]
  · cases ps <;> simp [PairList.fuelFor]

/-- Mutual induction principle for the modelled value type, assembled
from the generated recursors. -/
theorem value_induct
    (P : Value → Prop) (Q : ValueList → Prop) (R : PairList → Prop)
    (hint : ∀ n, P (.int n)) (hbytes : ∀ b, P (.bytes b)) (hstr : ∀ s, P (.str s))
    (harr : ∀ vs, Q vs → P (.arr vs)) (hmap : ∀ ps, R ps → P (.map ps))
    (hnil : Q .nil) (hcons : ∀ v vs, P v → Q vs → Q (.cons v vs))
    (hpnil : R .nil) (hpcons : ∀ k v ps, P k → P v → R ps → R (.cons k v ps)) :
    (∀ v, P v) ∧ (∀ vs, Q vs) ∧ (∀ ps, R ps) :=
  ⟨fun v => Value.rec hint hbytes hstr harr hmap hnil hcons hpnil hpcons v,
   fun vs => ValueList.rec hint hbytes hstr harr hmap hnil hcons hpnil hpcons vs,
   fun ps => PairList.rec hint hbytes hstr harr hmap hnil hcons hpnil hpcons ps⟩

theorem encValue_length_pos (v : Value) : 1 ≤ (encValue v).length := by
  cases v <;> simp [encValue]

/-- Round-trip of the modelled encoding: with enough fuel, decoding an
encoded value consumes exactly its encoding and returns the rest. -/
theorem decodeAux_enc : ∀ f : Nat,
    (∀ (v : Value) (rest : List Nat), v.fuelFor ≤ f →
      decodeAux f .one (encValue v ++ rest) = some (v, rest)) ∧
    (∀ (vs : ValueList) (rest : List Nat), vs.fuelFor ≤ f →
      decodeAux f (.many vs.length) (encValueList vs ++ rest) = some (.arr vs, rest)) ∧
    (∀ (ps : PairList) (rest : List Nat), ps.fuelFor ≤ f →
      decodeAux f (.pairs ps.length) (encPairList ps ++ rest) = some (.map ps, rest)) := by
  intro f
  induction f with
  | zero =>
    refine ⟨fun v rest h => ?_, fun vs rest h => ?_, fun ps rest h => ?_⟩
    · exact absurd h (by have := fuelFor_pos.1 v; omega)
    · exact absurd h (by have := fuelFor_pos.2.1 vs; omega)
    · exact absurd h (by have := fuelFor_pos.2.2 ps; omega)
  | succ f ih =>
    obtain ⟨ih1, ih2, ih3⟩ := ih
    refine ⟨fun v rest h => ?_, fun vs rest h => ?_, fun ps rest h => ?_⟩
    · cases v with
      | int n =>
        simp [encValue, decodeAux, decNat_encNat]
      | bytes b =>
        have hstream : encValue (Value.bytes b) ++ rest = 1 :: (encNat b.length ++ (b ++ rest)) := by
          simp [encValue]
        rw [hstream]
        simp only [decodeAux]
        rw [decNat_encNat]
        simp [List.take_left' rfl, List.drop_left' rfl]
      | str s =>
        have hstream : encValue (Value.str s) ++ rest = 2 :: (encNat s.length ++ (s ++ rest)) := by
          simp [encValue]
        rw [hstream]
        simp only [decodeAux]
        rw [decNat_encNat]
        simp [List.take_left' rfl, List.drop_left' rfl]
      | arr vs =>
        have hstream : encValue (Value.arr vs) ++ rest =
            3 :: (encNat vs.length ++ (encValueList vs ++ rest)) := by
          simp [encValue]
        rw [hstream]
        simp only [decodeAux]
        rw [decNat_encNat]
        simp only [Value.fuelFor] at h
        exact ih2 vs rest (by omega)
      | map kvs =>
        have hstream : encValue (Value.map kvs) ++ rest =
            4 :: (encNat kvs.length ++ (encPairList kvs ++ rest)) := by
          simp [encValue]
        rw [hstream]
        simp only [decodeAux]
        rw [decNat_encNat]
        simp only [Value.fuelFor] at h
        exact ih3 kvs rest (by omega)
    · cases vs with
      | nil => simp [encValueList, ValueList.length, decodeAux]
      | cons v vs' =>
        simp only [ValueList.fuelFor] at h
        have hboth : Nat.max v.fuelFor vs'.fuelFor ≤ f := by omega
        have hv : v.fuelFor ≤ f := le_trans (Nat.le_max_left _ _) hboth
        have hvs : vs'.fuelFor ≤ f := le_trans (Nat.le_max_right _ _) hboth
        simp only [encValueList, ValueList.length, List.append_assoc, decodeAux]
        rw [ih1 v _ hv]
        simp [ih2 vs' rest hvs]
    · cases ps with
      | nil => simp [encPairList, PairList.length, decodeAux]
      | cons k v ps' =>
        simp only [PairList.fuelFor] at h
        have hboth : Nat.max k.fuelFor (Nat.max v.fuelFor ps'.fuelFor) ≤ f := by omega
        have hrest : Nat.max v.fuelFor ps'.fuelFor ≤ f :=
          le_trans (Nat.le_max_right _ _) hboth
        have hk : k.fuelFor ≤ f := le_trans (Nat.le_max_left _ _) hboth
        have hv : v.fuelFor ≤ f := le_trans (Nat.le_max_left _ _) hrest
        have hps : ps'.fuelFor ≤ f := le_trans (Nat.le_max_right _ _) hrest
        simp only [encPairList, PairList.length, List.append_assoc, decodeAux]
        rw [ih1 k _ hk]
        simp [ih1 v _ hv, ih3 ps' rest hps]

theorem fuelFor_le_length :
    (∀ v : Value, v.fuelFor ≤ (encValue v).length) ∧
    (∀ vs : ValueList, vs.fuelFor ≤ (encValueList vs).length + 1) ∧
    (∀ ps : PairList, ps.fuelFor ≤ (encPairList ps).length + 1) := by
  apply value_induct
  · intro n; simp [Value.fuelFor, encValue]
  · intro b; simp [Value.fuelFor, encValue]
  · intro s; simp [Value.fuelFor, encValue]
  · intro vs hvs
    have h1 : 1 ≤ (encNat vs.length).length := by
      cases he : encNat vs.length with
      | nil => exact absurd he (encNat_ne_nil _)
      | cons x xs => simp
    simp only [Value.fuelFor, encValue, List.length_cons, List.length_append]
    omega
  · intro ps hps
    have h1 : 1 ≤ (encNat ps.length).length := by
      cases he : encNat ps.length with
      | nil => exact absurd he (encNat_ne_nil _)
      | cons x xs => simp
    simp only [Value.fuelFor, encValue, List.length_cons, List.length_append]
    omega
  · simp [ValueList.fuelFor, encValueList]
  · intro v vs hv hvs
    have h1 := encValue_length_pos v
    simp only [ValueList.fuelFor, encValueList, List.length_append]
    have hm : Nat.max v.fuelFor vs.fuelFor ≤ (encValue v).length + (encValueList vs).length := by
      apply Nat.max_le.mpr
      constructor <;> omega
    omega
  · simp [PairList.fuelFor, encPairList]
  · intro k v ps hk hv hps
    have h1 := encValue_length_pos k
    have h2 := encValue_length_pos v
    simp only [PairList.fuelFor, encPairList, List.length_append]
    have hm : Nat.max k.fuelFor (Nat.max v.fuelFor ps.fuelFor) ≤
        (encValue k).length + ((encValue v).length + (encPairList ps).length) := by
      apply Nat.max_le.mpr
      refine ⟨by omega, ?_⟩
      apply Nat.max_le.mpr
      constructor <;> omega
    omega

/-- Modelled `umsgpack.unpack`/`umsgpack.unpackb`: decode one value off
the front of a byte stream, returning it with the unconsumed rest. -/
def unpack_value (l : List Nat) : Option (Value × List Nat) :=
  decodeAux (l.length + 1) .one l

theorem unpack_value_enc (v : Value) (rest : List Nat) :
    unpack_value (encValue v ++ rest) = some (v, rest) := by
  apply (decodeAux_enc _).1
  have h1 := fuelFor_le_length.1 v
  have h2 : (encValue v).length ≤ (encValue v ++ rest).length := by
    simp
  omega

/-! ### The framing layer (src/encrypt.py:44-57) -/

/-- Model of `write_framed_msgpack` (src/encrypt.py:44-48): pack the
object, then emit the packed byte length as its own msgpack value
followed by the packed bytes. -/
def write_framed_msgpack (obj : Value) : List Nat :=
  encValue (.int (encValue obj).length) ++ encValue obj

/-- Model of `read_framed_msgpack` (src/encrypt.py:51-57): unpack one
value (the frame length) and discard it — "We discard the frame length
and stream on." — then unpack the object itself from the stream. -/
def read_framed_msgpack (l : List Nat) : Option (Value × List Nat) :=
  match unpack_value l with
  | none => none
  | some (_, r₁) => unpack_value r₁

theorem read_framed_msgpack_write (obj : Value) (rest : List Nat) :
    read_framed_msgpack (write_framed_msgpack obj ++ rest) = some (obj, rest) := by
  rw [write_framed_msgpack, List.append_assoc, read_framed_msgpack,
    unpack_value_enc (.int (encValue obj).length) (encValue obj ++ rest)]
  simp [unpack_value_enc]

/-! ### Byte-string keys of the msgpack maps used by the program -/

/-- ASCII bytes of `"version"`. -/
def kVersion : List Nat := [118, 101, 114, 115, 105, 111, 110]
/-- ASCII bytes of `"sender"`. -/
def kSender : List Nat := [115, 101, 110, 100, 101, 114]
/-- ASCII bytes of `"nonce"`. -/
def kNonce : List Nat := [110, 111, 110, 99, 101]
/-- ASCII bytes of `"recipients"`. -/
def kRecipients : List Nat := [114, 101, 99, 105, 112, 105, 101, 110, 116, 115]
/-- ASCII bytes of `"encryption_key"`. -/
def kEncryptionKey : List Nat := [101, 110, 99, 114, 121, 112, 116, 105, 111, 110, 95, 107, 101, 121]
/-- ASCII bytes of `"mac_group"`. -/
def kMacGroup : List Nat := [109, 97, 99, 95, 103, 114, 111, 117, 112]
/-- ASCII bytes of `"mac_key"`. -/
def kMacKey : List Nat := [109, 97, 99, 95, 107, 101, 121]
/-- ASCII bytes of `"macs"`. -/
def kMacs : List Nat := [109, 97, 99, 115]
/-- ASCII bytes of `"chunk"`. -/
def kChunk : List Nat := [99, 104, 117, 110, 107]

/-- `FORMAT_VERSION` (src/encrypt.py:20). -/
def FORMAT_VERSION : Nat := 1

/-! ### The encoder (src/encrypt.py:32-41, 79-146) -/

/-- Fuel-driven body of `chunks_with_empty`; the fuel is the message
length, enough for the loop that advances `chunk_start` by `chunk_size`
each round.  With `chunk_size = 0` the source loops forever, so that
branch is cut short here and all claims assume `chunk_size ≥ 1`. -/
def chunksAux : Nat → List Nat → Nat → List (List Nat)
  | _, [], _ => [[]]
  | 0, _, _ => [[]]
  | fuel+1, message, chunk_size =>
    if chunk_size = 0 then [[]]
    else message.take chunk_size :: chunksAux fuel (message.drop chunk_size) chunk_size

/-- Model of `chunks_with_empty` (src/encrypt.py:32-41): split the
message into `chunk_size`-byte chunks and append one empty terminator
chunk. -/
def chunks_with_empty (message : List Nat) (chunk_size : Nat) : List (List Nat) :=
  chunksAux message.length message chunk_size

/-- The `os.urandom` draws consumed by one `encrypt` call, threaded in
explicitly: the 32-byte message `encryption_key` (line 81), the 16-byte
`recipients_nonce_start` (line 89), and the 16-byte per-group MAC key
(line 93), indexed by group number. -/
structure Urandom where
  encryption_key : List Nat
  recipients_nonce_start : List Nat
  mac_key : Nat → List Nat

/-- The per-recipient key bundle `keys` (src/encrypt.py:96-105):
`encryption_key` always, plus `mac_group`/`mac_key` exactly when
`need_macs`. -/
def keysBundle (need_macs : Bool) (encryption_key : List Nat) (group_num : Nat)
    (mac_key : List Nat) : Value :=
  if need_macs then
    .map (.cons (.str kEncryptionKey) (.bytes encryption_key)
         (.cons (.str kMacGroup) (.int group_num)
         (.cons (.str kMacKey) (.bytes mac_key) .nil)))
  else
    .map (.cons (.str kEncryptionKey) (.bytes encryption_key) .nil)

/-- One entry of the header's `recipients` list
(src/encrypt.py:106-115): the recipient public key together with the
key bundle boxed to it under nonce `recipients_nonce_start ‖
recipient_num.to_bytes(8, 'big')`. -/
def boxRecipient (sender_private : Nat) (nonce_start : List Nat) (need_macs : Bool)
    (encryption_key : List Nat) (group_num : Nat) (mac_key : List Nat)
    (recipient_num : Nat) (recipient : List Nat) : Value :=
  .arr (.cons (.bytes recipient)
       (.cons (.bytes (crypto_box
          (encValue (keysBundle need_macs encryption_key group_num mac_key))
          (nonce_start ++ to_bytes 8 recipient_num)
          sender_private recipient)) .nil))

/-- The inner loop of src/encrypt.py:95-115: the entries of one group,
with the running recipient counter. -/
def entriesForGroup (sender_private : Nat) (nonce_start : List Nat) (need_macs : Bool)
    (encryption_key : List Nat) (group_num : Nat) (mac_key : List Nat) :
    Nat → List (List Nat) → List Value
  | _, [] => []
  | recipient_num, recipient :: rest =>
    boxRecipient sender_private nonce_start need_macs encryption_key group_num mac_key
      recipient_num recipient ::
    entriesForGroup sender_private nonce_start need_macs encryption_key group_num mac_key
      (recipient_num + 1) rest

/-- The outer loop of src/encrypt.py:91-115: all recipient entries, in
group order then within-group order, with the group counter and the
running recipient counter. -/
def entriesAll (sender_private : Nat) (nonce_start : List Nat) (need_macs : Bool)
    (encryption_key : List Nat) (mac_key : Nat → List Nat) :
    Nat → Nat → List (List (List Nat)) → List Value
  | _, _, [] => []
  | group_num, recipient_num, group :: groups =>
    entriesForGroup sender_private nonce_start need_macs encryption_key group_num
      (mac_key group_num) recipient_num group ++
    entriesAll sender_private nonce_start need_macs encryption_key mac_key
      (group_num + 1) (recipient_num + group.length) groups

/-- Lift a Lean list of values into the embedded `ValueList`. -/
def valueListOf : List Value → ValueList
  | [] => .nil
  | v :: rest => .cons v (valueListOf rest)

/-- The `header` dictionary (src/encrypt.py:116-121), in the literal
insertion order of the source. -/
def headerValue (sender_private : Nat) (recipient_groups : List (List (List Nat)))
    (r : Urandom) : Value :=
  .map (.cons (.str kVersion) (.int FORMAT_VERSION)
       (.cons (.str kSender) (.bytes (crypto_scalarmult_base sender_private))
       (.cons (.str kNonce) (.bytes r.recipients_nonce_start)
       (.cons (.str kRecipients)
          (.arr (valueListOf (entriesAll sender_private r.recipients_nonce_start
            (decide (1 < recipient_groups.length)) r.encryption_key r.mac_key 0 0
            recipient_groups))) .nil))))

/-- The `macs` list of one chunk record (src/encrypt.py:133-139): one
truncated HMAC of the chunk's 16-byte authenticator per MAC key when
`need_macs`, empty otherwise. -/
def macsOf (need_macs : Bool) (mac_keys : List (List Nat)) (boxed_chunk : List Nat) :
    List Value :=
  if need_macs then
    mac_keys.map (fun mac_key => .bytes ((hmac_digest mac_key (boxed_chunk.take 16)).take 16))
  else []

/-- The `chunk_map` record of one chunk (src/encrypt.py:126-143): the
chunk encrypted with `crypto_secretbox` under the 24-byte big-endian
chunk-number nonce, with its `macs` list. -/
def chunkRecord (need_macs : Bool) (mac_keys : List (List Nat)) (encryption_key : List Nat)
    (chunknum : Nat) (chunk : List Nat) : Value :=
  .map (.cons (.str kMacs)
          (.arr (valueListOf (macsOf need_macs mac_keys
            (crypto_secretbox chunk (to_bytes 24 chunknum) encryption_key))))
       (.cons (.str kChunk)
          (.bytes (crypto_secretbox chunk (to_bytes 24 chunknum) encryption_key)) .nil))

/-- The chunk loop of src/encrypt.py:126-144 (`for chunknum, chunk in
enumerate(...)`): one framed chunk record per chunk, with the running
chunk counter. -/
def chunkFrames (need_macs : Bool) (mac_keys : List (List Nat)) (encryption_key : List Nat) :
    Nat → List (List Nat) → List Nat
  | _, [] => []
  | chunknum, chunk :: rest =>
    write_framed_msgpack (chunkRecord need_macs mac_keys encryption_key chunknum chunk) ++
    chunkFrames need_macs mac_keys encryption_key (chunknum + 1) rest

/-- Model of `encrypt` (src/encrypt.py:79-146). -/
def encrypt (sender_private : Nat) (recipient_groups : List (List (List Nat)))
    (message : List Nat) (chunk_size : Nat) (r : Urandom) : List Nat :=
  let need_macs := decide (1 < recipient_groups.length)
  let mac_keys := if need_macs then (List.range recipient_groups.length).map r.mac_key else []
  write_framed_msgpack (headerValue sender_private recipient_groups r) ++
    chunkFrames need_macs mac_keys r.encryption_key 0 (chunks_with_empty message chunk_size)

/-! ### The decoder (src/encrypt.py:149-207) -/

/-- The failure modes of `decrypt`.  `malformed` models the msgpack
`InsufficientData`-style unpack failures; `typeError` collects the
Python `TypeError`/`KeyError`/`ValueError`/`IndexError` crashes on
ill-shaped values; `badVersion` is the `assert version == 1` failure;
`recipientNotFound` is `RuntimeError('recipient key not found')`
(line 166); `authFailure` is the `nacl` `CryptoError` of a failed
box/secretbox open; `macMismatch` is `RuntimeError("MAC mismatch!")`
(line 196). -/
inductive DecErr where
  | malformed : DecErr
  | typeError : DecErr
  | badVersion : DecErr
  | recipientNotFound : DecErr
  | authFailure : DecErr
  | macMismatch : DecErr
deriving DecidableEq

/-- Python `==` between a msgpack value and a byte-string key. -/
def keyIs : Value → List Nat → Bool
  | .str s, key => decide (s = key)
  | _, _ => false

/-- Python dictionary lookup `d[key]` / `d.get(key)` on an embedded
map, with the byte-string key `key`. -/
def PairList.get : PairList → List Nat → Option Value
  | .nil, _ => none
  | .cons k v rest, key => if keyIs k key then some v else rest.get key

/-- Python list subscript `l[i]` on an embedded array. -/
def ValueList.getIdx : ValueList → Nat → Option Value
  | .nil, _ => none
  | .cons v _, 0 => some v
  | .cons _ rest, n+1 => rest.getIdx n

/-- The recipient scan of src/encrypt.py:160-166 (`for pub, boxed_keys
in recipients: if pub == recipient_public: break ... else: raise`):
linear scan with the running counter `recipient_num`; a non-matching
entry is skipped, an entry that cannot be unpacked into two components
is a crash, exhaustion is `recipient key not found`.  Entries that are
two-element byte/str sequences unpack into non-bytes components, which
never compare equal to the public key; a two-pair map unpacks into its
two keys. -/
def findRec : ValueList → List Nat → Nat → Except DecErr (Nat × Value)
  | .nil, _, _ => .error .recipientNotFound
  | .cons e rest, recipient_public, recipient_num =>
    match e with
    | .arr (.cons p (.cons b .nil)) =>
      match p with
      | .bytes pb =>
        if pb = recipient_public then .ok (recipient_num, b)
        else findRec rest recipient_public (recipient_num + 1)
      | _ => findRec rest recipient_public (recipient_num + 1)
    | .arr _ => .error .typeError
    | .bytes l =>
      if l.length = 2 then findRec rest recipient_public (recipient_num + 1)
      else .error .typeError
    | .str l =>
      if l.length = 2 then findRec rest recipient_public (recipient_num + 1)
      else .error .typeError
    | .map (.cons k₁ _ (.cons k₂ _ .nil)) =>
      match k₁ with
      | .bytes pb =>
        if pb = recipient_public then .ok (recipient_num, k₂)
        else findRec rest recipient_public (recipient_num + 1)
      | _ => findRec rest recipient_public (recipient_num + 1)
    | .map _ => .error .typeError
    | .int _ => .error .typeError

/-- The MAC check of src/encrypt.py:188-196: skipped when the key
bundle carried no `mac_key`; otherwise look up `macs[mac_group]`,
recompute the truncated HMAC of the chunk's leading 16-byte
authenticator and compare. -/
def macCheck (mgV mkV : Option Value) (macsV : Value) (boxed_chunk : List Nat) :
    Except DecErr Unit :=
  match mkV with
  | none => .ok ()
  | some mkVal =>
    match macsV with
    | .arr ms =>
      match mgV with
      | some (.int mac_group) =>
        match ms.getIdx mac_group with
        | none => .error .typeError
        | some their_macV =>
          match mkVal, their_macV with
          | .bytes mac_key, .bytes their_mac =>
            if their_mac = (hmac_digest mac_key (boxed_chunk.take 16)).take 16 then .ok ()
            else .error .macMismatch
          | _, _ => .error .typeError
      | _ => .error .typeError
    | _ => .error .typeError

/-- The chunk loop of src/encrypt.py:181-207 (`while True`), with fuel
bounded by the remaining stream length (each frame consumes at least
one byte, so the fuel never runs out on a stream the loop actually
parses): read a framed chunk record, check its MAC, decrypt it,
stop at the first empty chunk, otherwise append and continue. -/
def decryptLoop : Nat → Value → Option Value → Option Value → Nat → List Nat → List Nat →
    Except DecErr (List Nat)
  | 0, _, _, _, _, _, _ => .error .malformed
  | fuel+1, ekV, mgV, mkV, chunknum, output, stream =>
    match read_framed_msgpack stream with
    | none => .error .malformed
    | some (chunk_map, rest) =>
      match chunk_map with
      | .map kvs =>
        match kvs.get kMacs with
        | none => .error .typeError
        | some macsV =>
          match kvs.get kChunk with
          | none => .error .typeError
          | some chunkV =>
            match chunkV with
            | .bytes boxed_chunk =>
              match macCheck mgV mkV macsV boxed_chunk with
              | .error e => .error e
              | .ok _ =>
                match ekV with
                | .bytes encryption_key =>
                  match crypto_secretbox_open boxed_chunk (to_bytes 24 chunknum)
                      encryption_key with
                  | none => .error .authFailure
                  | some chunk =>
                    if chunk = [] then .ok output
                    else decryptLoop fuel ekV mgV mkV (chunknum + 1) (output ++ chunk) rest
                | _ => .error .typeError
            | _ => .error .typeError
      | _ => .error .typeError

/-- The tail of `decrypt` after the recipient scan
(src/encrypt.py:167-207): rebuild the unwrap nonce from the found
`recipient_num`, open the found entry's key box against the header's
sender key, unpack the key bundle, and run the chunk loop. -/
def decryptBody (recipient_private : Nat) (senderV nonceV : Value) (recipient_num : Nat)
    (boxedKeysV : Value) (stream : List Nat) : Except DecErr (List Nat) :=
  match nonceV with
  | .bytes recipients_nonce_start =>
    match boxedKeysV with
    | .bytes boxed_keys =>
      match senderV with
      | .bytes sender_public =>
        match crypto_box_open boxed_keys
            (recipients_nonce_start ++ to_bytes 8 recipient_num)
            recipient_private sender_public with
        | none => .error .authFailure
        | some packed_keys =>
          match unpack_value packed_keys with
          | none => .error .malformed
          | some (keysV, _) =>
            match keysV with
            | .map kkvs =>
              match kkvs.get kEncryptionKey with
              | none => .error .typeError
              | some ekV =>
                decryptLoop (stream.length + 1) ekV (kkvs.get kMacGroup)
                  (kkvs.get kMacKey) 0 [] stream
            | _ => .error .typeError
      | _ => .error .typeError
    | _ => .error .typeError
  | _ => .error .typeError

/-- Model of `decrypt` (src/encrypt.py:149-207). -/
def decrypt (input : List Nat) (recipient_private : Nat) : Except DecErr (List Nat) :=
  match read_framed_msgpack input with
  | none => .error .malformed
  | some (header, stream) =>
    match header with
    | .map hkvs =>
      match hkvs.get kVersion with
      | none => .error .typeError
      | some versionV =>
        match versionV with
        | .int v =>
          if v = FORMAT_VERSION then
            match hkvs.get kSender with
            | none => .error .typeError
            | some senderV =>
              match hkvs.get kNonce with
              | none => .error .typeError
              | some nonceV =>
                match hkvs.get kRecipients with
                | none => .error .typeError
                | some recipientsV =>
                  match recipientsV with
                  | .arr recipients =>
                    match findRec recipients
                        (crypto_scalarmult_base recipient_private) 0 with
                    | .error e => .error e
                    | .ok (recipient_num, boxedKeysV) =>
                      decryptBody recipient_private senderV nonceV recipient_num
                        boxedKeysV stream
                  | _ => .error .typeError
          else .error .badVersion
        | _ => .error .badVersion
    | _ => .error .typeError

/-! ### Structure of `chunks_with_empty` -/

theorem chunksAux_irrel : ∀ (fuel₁ : Nat) (message : List Nat) (fuel₂ cs : Nat),
    message.length ≤ fuel₁ → message.length ≤ fuel₂ → 1 ≤ cs →
    chunksAux fuel₁ message cs = chunksAux fuel₂ message cs := by
  intro fuel₁
  induction fuel₁ with
  | zero =>
    intro message fuel₂ cs h1 _ _
    have : message = [] := List.eq_nil_of_length_eq_zero (by omega)
    subst this
    cases fuel₂ <;> rfl
  | succ f ih =>
    intro message fuel₂ cs h1 h2 hcs
    cases message with
    | nil => cases fuel₂ <;> rfl
    | cons m ms =>
      cases fuel₂ with
      | zero => simp at h2
      | succ f₂ =>
        simp only [chunksAux, if_neg (by omega : ¬ cs = 0)]
        have hlen : ((m :: ms).drop cs).length ≤ f := by
          simp only [List.length_drop, List.length_cons] at *
          omega
        have hlen₂ : ((m :: ms).drop cs).length ≤ f₂ := by
          simp only [List.length_drop, List.length_cons] at *
          omega
        rw [ih _ f₂ cs hlen hlen₂ hcs]

theorem chunks_with_empty_nil (cs : Nat) : chunks_with_empty [] cs = [[]] := rfl

theorem chunks_with_empty_cons (message : List Nat) (cs : Nat)
    (h : message ≠ []) (hcs : 1 ≤ cs) :
    chunks_with_empty message cs =
      message.take cs :: chunks_with_empty (message.drop cs) cs := by
  obtain ⟨m, ms, rfl⟩ := List.exists_cons_of_ne_nil h
  show chunksAux (ms.length + 1) (m :: ms) cs = _
  simp only [chunksAux, if_neg (by omega : ¬ cs = 0)]
  rw [chunks_with_empty,
    chunksAux_irrel ms.length ((m :: ms).drop cs) ((m :: ms).drop cs).length cs
      (by simp; omega) (le_refl _) hcs]

/-- Shape of the chunk list: the data chunks (all non-empty) followed by
the single empty terminator chunk, flattening back to the message. -/
theorem chunks_with_empty_decomp : ∀ (n : Nat) (message : List Nat) (cs : Nat),
    message.length ≤ n → 1 ≤ cs →
    ∃ front, chunks_with_empty message cs = front ++ [[]] ∧
      front.flatten = message ∧ ∀ ch ∈ front, ch ≠ [] := by
  intro n
  induction n with
  | zero =>
    intro message cs h1 _
    have : message = [] := List.eq_nil_of_length_eq_zero (by omega)
    subst this
    exact ⟨[], rfl, rfl, by simp⟩
  | succ n ih =>
    intro message cs h1 hcs
    by_cases hmsg : message = []
    · subst hmsg
      exact ⟨[], rfl, rfl, by simp⟩
    · obtain ⟨front, hf1, hf2, hf3⟩ := ih (message.drop cs) cs
        (by simp only [List.length_drop]; omega) hcs
      refine ⟨message.take cs :: front, ?_, ?_, ?_⟩
      · rw [chunks_with_empty_cons message cs hmsg hcs, hf1]
        rfl
      · simp [hf2]
      · intro ch hch
        rcases List.mem_cons.mp hch with h | h
        · subst h
          intro htake
          have hlen := congrArg List.length htake
          simp only [List.length_take, List.length_nil] at hlen
          have h1 : 1 ≤ message.length :=
            Nat.pos_of_ne_zero (fun h0 => hmsg (List.eq_nil_of_length_eq_zero h0))
          rcases Nat.min_eq_zero_iff.mp hlen with h | h <;> omega
        · exact hf3 ch h

/-- Chunk count: `ceil(len/cs) + 1`, computed as
`(len + cs - 1) / cs + 1`. -/
theorem chunks_with_empty_length : ∀ (n : Nat) (message : List Nat) (cs : Nat),
    message.length ≤ n → 1 ≤ cs →
    (chunks_with_empty message cs).length = (message.length + cs - 1) / cs + 1 := by
  intro n
  induction n with
  | zero =>
    intro message cs h1 hcs
    have : message = [] := List.eq_nil_of_length_eq_zero (by omega)
    subst this
    simp [chunks_with_empty_nil, Nat.div_eq_of_lt (by omega : cs - 1 < cs)]
  | succ n ih =>
    intro message cs h1 hcs
    by_cases hmsg : message = []
    · subst hmsg
      simp [chunks_with_empty_nil, Nat.div_eq_of_lt (by omega : cs - 1 < cs)]
    · have hlen : 1 ≤ message.length := by
        cases message with
        | nil => exact absurd rfl hmsg
        | cons m ms => simp
      rw [chunks_with_empty_cons message cs hmsg hcs]
      rw [List.length_cons, ih (message.drop cs) cs (by simp only [List.length_drop]; omega) hcs]
      simp only [List.length_drop]
      by_cases hle : message.length ≤ cs
      · have h2 : (message.length + cs - 1) / cs = 1 := by
          apply Nat.div_eq_of_lt_le
          · simpa using (by omega : cs ≤ message.length + cs - 1)
          · simpa [Nat.two_mul] using (by omega : message.length + cs - 1 < cs + cs)
        have h3 : message.length - cs = 0 := by omega
        rw [h2, h3]
        simp [Nat.div_eq_of_lt (by omega : cs - 1 < cs)]
      · have h4 : message.length + cs - 1 = (message.length - cs + cs - 1) + cs := by omega
        rw [h4, Nat.add_div_right _ (by omega)]

/-! ### Structure of the emitted chunk frames -/

/-- The individual framed chunk records emitted by the encoder's chunk
loop, one list element per chunk. -/
def chunkFramesList (need_macs : Bool) (mac_keys : List (List Nat))
    (encryption_key : List Nat) : Nat → List (List Nat) → List (List Nat)
  | _, [] => []
  | chunknum, chunk :: rest =>
    write_framed_msgpack (chunkRecord need_macs mac_keys encryption_key chunknum chunk) ::
    chunkFramesList need_macs mac_keys encryption_key (chunknum + 1) rest

theorem chunkFrames_eq_flatten (nm : Bool) (mks : List (List Nat)) (ek : List Nat) :
    ∀ (k : Nat) (cs : List (List Nat)),
    chunkFrames nm mks ek k cs = (chunkFramesList nm mks ek k cs).flatten := by
  intro k cs
  induction cs generalizing k with
  | nil => rfl
  | cons ch rest ih => simp [chunkFrames, chunkFramesList, ih (k+1)]

theorem chunkFramesList_length (nm : Bool) (mks : List (List Nat)) (ek : List Nat) :
    ∀ (k : Nat) (cs : List (List Nat)),
    (chunkFramesList nm mks ek k cs).length = cs.length := by
  intro k cs
  induction cs generalizing k with
  | nil => rfl
  | cons ch rest ih => simp [chunkFramesList, ih (k+1)]

theorem chunkFramesList_append (nm : Bool) (mks : List (List Nat)) (ek : List Nat) :
    ∀ (a b : List (List Nat)) (k : Nat),
    chunkFramesList nm mks ek k (a ++ b) =
      chunkFramesList nm mks ek k a ++ chunkFramesList nm mks ek (k + a.length) b := by
  intro a
  induction a with
  | nil => intro b k; simp [chunkFramesList]
  | cons ch rest ih =>
    intro b k
    simp only [List.cons_append, List.append_eq, chunkFramesList, ih b (k+1), List.length_cons]
    rw [show k + (rest.length + 1) = k + 1 + rest.length by omega]

theorem chunkFrames_append (nm : Bool) (mks : List (List Nat)) (ek : List Nat)
    (a b : List (List Nat)) (k : Nat) :
    chunkFrames nm mks ek k (a ++ b) =
      chunkFrames nm mks ek k a ++ chunkFrames nm mks ek (k + a.length) b := by
  simp [chunkFrames_eq_flatten, chunkFramesList_append]

theorem chunkFrames_length_ge (nm : Bool) (mks : List (List Nat)) (ek : List Nat) :
    ∀ (k : Nat) (cs : List (List Nat)),
    cs.length ≤ (chunkFrames nm mks ek k cs).length := by
  intro k cs
  induction cs generalizing k with
  | nil => simp [chunkFrames]
  | cons ch rest ih =>
    simp only [chunkFrames, List.length_append, List.length_cons]
    have h1 : 1 ≤ (write_framed_msgpack (chunkRecord nm mks ek k ch)).length := by
      rw [write_framed_msgpack]
      have := encValue_length_pos (Value.int (encValue (chunkRecord nm mks ek k ch)).length)
      simp only [List.length_append]
      omega
    have := ih (k+1)
    omega

/-! ### The recipients list as (public key, wrapped keys) pairs -/

/-- One well-shaped recipients entry: the two-element msgpack list
`[recipient, boxed_keys]` (src/encrypt.py:115). -/
def pairEntry (p : List Nat × List Nat) : Value :=
  .arr (.cons (.bytes p.1) (.cons (.bytes p.2) .nil))

/-- The (public key, wrapped keys) pairs produced for one group,
parallel to `entriesForGroup`. -/
def pairsForGroup (sender_private : Nat) (nonce_start : List Nat) (need_macs : Bool)
    (encryption_key : List Nat) (group_num : Nat) (mac_key : List Nat) :
    Nat → List (List Nat) → List (List Nat × List Nat)
  | _, [] => []
  | recipient_num, recipient :: rest =>
    (recipient, crypto_box
        (encValue (keysBundle need_macs encryption_key group_num mac_key))
        (nonce_start ++ to_bytes 8 recipient_num) sender_private recipient) ::
    pairsForGroup sender_private nonce_start need_macs encryption_key group_num mac_key
      (recipient_num + 1) rest

/-- The (public key, wrapped keys) pairs of all groups, parallel to
`entriesAll`. -/
def pairsAll (sender_private : Nat) (nonce_start : List Nat) (need_macs : Bool)
    (encryption_key : List Nat) (mac_key : Nat → List Nat) :
    Nat → Nat → List (List (List Nat)) → List (List Nat × List Nat)
  | _, _, [] => []
  | group_num, recipient_num, group :: groups =>
    pairsForGroup sender_private nonce_start need_macs encryption_key group_num
      (mac_key group_num) recipient_num group ++
    pairsAll sender_private nonce_start need_macs encryption_key mac_key
      (group_num + 1) (recipient_num + group.length) groups

theorem entriesForGroup_eq_pairs (sp : Nat) (ns : List Nat) (nm : Bool) (ek : List Nat)
    (g : Nat) (mk : List Nat) : ∀ (rnum : Nat) (grp : List (List Nat)),
    entriesForGroup sp ns nm ek g mk rnum grp =
      (pairsForGroup sp ns nm ek g mk rnum grp).map pairEntry := by
  intro rnum grp
  induction grp generalizing rnum with
  | nil => rfl
  | cons pub rest ih =>
    simp [entriesForGroup, pairsForGroup, ih (rnum+1), boxRecipient, pairEntry]

theorem entriesAll_eq_pairs (sp : Nat) (ns : List Nat) (nm : Bool) (ek : List Nat)
    (mkf : Nat → List Nat) : ∀ (gs : List (List (List Nat))) (g0 r0 : Nat),
    entriesAll sp ns nm ek mkf g0 r0 gs =
      (pairsAll sp ns nm ek mkf g0 r0 gs).map pairEntry := by
  intro gs
  induction gs with
  | nil => intro g0 r0; rfl
  | cons grp rest ih =>
    intro g0 r0
    simp [entriesAll, pairsAll, entriesForGroup_eq_pairs, ih]

theorem pairsForGroup_fst (sp : Nat) (ns : List Nat) (nm : Bool) (ek : List Nat)
    (g : Nat) (mk : List Nat) : ∀ (rnum : Nat) (grp : List (List Nat)),
    (pairsForGroup sp ns nm ek g mk rnum grp).map Prod.fst = grp := by
  intro rnum grp
  induction grp generalizing rnum with
  | nil => rfl
  | cons pub rest ih => simp [pairsForGroup, ih (rnum+1)]

theorem pairsForGroup_length (sp : Nat) (ns : List Nat) (nm : Bool) (ek : List Nat)
    (g : Nat) (mk : List Nat) : ∀ (rnum : Nat) (grp : List (List Nat)),
    (pairsForGroup sp ns nm ek g mk rnum grp).length = grp.length := by
  intro rnum grp
  induction grp generalizing rnum with
  | nil => rfl
  | cons pub rest ih => simp [pairsForGroup, ih (rnum+1)]

theorem pairsAll_fst (sp : Nat) (ns : List Nat) (nm : Bool) (ek : List Nat)
    (mkf : Nat → List Nat) : ∀ (gs : List (List (List Nat))) (g0 r0 : Nat),
    (pairsAll sp ns nm ek mkf g0 r0 gs).map Prod.fst = gs.flatten := by
  intro gs
  induction gs with
  | nil => intro g0 r0; rfl
  | cons grp rest ih =>
    intro g0 r0
    simp [pairsAll, pairsForGroup_fst, ih]

theorem pairsForGroup_get (sp : Nat) (ns : List Nat) (nm : Bool) (ek : List Nat)
    (g : Nat) (mk : List Nat) : ∀ (grp : List (List Nat)) (rnum i : Nat)
    (pr : List Nat × List Nat),
    (pairsForGroup sp ns nm ek g mk rnum grp)[i]? = some pr →
    ∃ pub, pr = (pub, crypto_box (encValue (keysBundle nm ek g mk))
      (ns ++ to_bytes 8 (rnum + i)) sp pub) := by
  intro grp
  induction grp with
  | nil => intro rnum i pr h; simp [pairsForGroup] at h
  | cons pub rest ih =>
    intro rnum i pr h
    cases i with
    | zero =>
      simp only [pairsForGroup, List.getElem?_cons_zero, Option.some.injEq] at h
      exact ⟨pub, by rw [Nat.add_zero]; exact h.symm⟩
    | succ j =>
      simp only [pairsForGroup, List.getElem?_cons_succ] at h
      obtain ⟨pub', hp⟩ := ih (rnum+1) j pr h
      exact ⟨pub', by rw [hp, show rnum + 1 + j = rnum + (j + 1) by omega]⟩

theorem pairsAll_get (sp : Nat) (ns : List Nat) (nm : Bool) (ek : List Nat)
    (mkf : Nat → List Nat) : ∀ (gs : List (List (List Nat))) (g0 r0 i : Nat)
    (pr : List Nat × List Nat),
    (pairsAll sp ns nm ek mkf g0 r0 gs)[i]? = some pr →
    ∃ g pub, g0 ≤ g ∧ g < g0 + gs.length ∧
      pr = (pub, crypto_box (encValue (keysBundle nm ek g (mkf g)))
        (ns ++ to_bytes 8 (r0 + i)) sp pub) := by
  intro gs
  induction gs with
  | nil => intro g0 r0 i pr h; simp [pairsAll] at h
  | cons grp rest ih =>
    intro g0 r0 i pr h
    rw [pairsAll] at h
    by_cases hi : i < (pairsForGroup sp ns nm ek g0 (mkf g0) r0 grp).length
    · rw [List.getElem?_append, if_pos hi] at h
      obtain ⟨pub, hp⟩ := pairsForGroup_get sp ns nm ek g0 (mkf g0) grp r0 i pr h
      exact ⟨g0, pub, le_refl _, by simp, hp⟩
    · rw [List.getElem?_append, if_neg hi] at h
      rw [pairsForGroup_length] at hi h
      obtain ⟨g, pub, hg1, hg2, hp⟩ := ih (g0+1) (r0 + grp.length) (i - grp.length) pr h
      refine ⟨g, pub, by omega, by simp only [List.length_cons]; omega, ?_⟩
      rw [hp, show r0 + grp.length + (i - grp.length) = r0 + i by omega]

/-! ### Behaviour of the recipient scan on well-shaped entries -/

theorem findRec_pairs_not_found :
    ∀ (prs : List (List Nat × List Nat)) (pub : List Nat) (c : Nat),
    pub ∉ prs.map Prod.fst →
    findRec (valueListOf (prs.map pairEntry)) pub c = .error .recipientNotFound := by
  intro prs
  induction prs with
  | nil => intro pub c _; rfl
  | cons pr rest ih =>
    intro pub c h
    simp only [List.map_cons, List.mem_cons, not_or] at h
    have hne : ¬ pr.1 = pub := fun he => h.1 he.symm
    simp only [List.map_cons, valueListOf, pairEntry, findRec]
    rw [if_neg hne]
    exact ih pub (c+1) h.2

theorem findRec_pairs_found :
    ∀ (pre : List (List Nat × List Nat)) (pub b : List Nat)
      (suf : List (List Nat × List Nat)) (c : Nat),
    pub ∉ pre.map Prod.fst →
    findRec (valueListOf ((pre ++ (pub, b) :: suf).map pairEntry)) pub c =
      .ok (c + pre.length, .bytes b) := by
  intro pre
  induction pre with
  | nil =>
    intro pub b suf c _
    simp only [List.nil_append, List.map_cons, valueListOf, pairEntry, findRec, if_pos rfl]
    rfl
  | cons pr rest ih =>
    intro pub b suf c h
    simp only [List.map_cons, List.mem_cons, not_or] at h
    have hne : ¬ pr.1 = pub := fun he => h.1 he.symm
    simp only [List.cons_append, List.append_eq, List.map_cons, valueListOf, pairEntry, findRec]
    rw [if_neg hne]
    rw [ih pub b suf (c+1) h.2, List.length_cons]
    rw [show c + 1 + rest.length = c + (rest.length + 1) by omega]

/-- Decomposition of a pair list at the first occurrence of a given
first component. -/
theorem mem_fst_decomp : ∀ (l : List (List Nat × List Nat)) (a : List Nat),
    a ∈ l.map Prod.fst →
    ∃ pre b suf, l = pre ++ (a, b) :: suf ∧ a ∉ pre.map Prod.fst := by
  intro l
  induction l with
  | nil => intro a h; simp at h
  | cons pr rest ih =>
    intro a h
    by_cases heq : pr.1 = a
    · exact ⟨[], pr.2, rest, by subst heq; rfl, by simp⟩
    · have : a ∈ rest.map Prod.fst := by
        simp only [List.map_cons, List.mem_cons] at h
        rcases h with h | h
        · exact absurd h.symm heq
        · exact h
      obtain ⟨pre, b, suf, h1, h2⟩ := ih a this
      refine ⟨pr :: pre, b, suf, by rw [h1]; rfl, ?_⟩
      simp only [List.map_cons, List.mem_cons, not_or]
      exact ⟨fun he => heq he.symm, h2⟩

theorem flatten_map_map {α β : Type} (f : α → β) : ∀ gs : List (List α),
    (gs.map (List.map f)).flatten = gs.flatten.map f := by
  intro gs
  induction gs with
  | nil => rfl
  | cons g rest ih => simp only [List.map_cons, List.flatten_cons, List.map_append, ih]

/-! ### Map lookups on the literal records the encoder writes -/

theorem get_macs_chunk₁ (x y : Value) :
    PairList.get (.cons (.str kMacs) x (.cons (.str kChunk) y .nil)) kMacs = some x := rfl

theorem get_macs_chunk₂ (x y : Value) :
    PairList.get (.cons (.str kMacs) x (.cons (.str kChunk) y .nil)) kChunk = some y := rfl

theorem get_header_version (a b c d : Value) :
    PairList.get (.cons (.str kVersion) a (.cons (.str kSender) b (.cons (.str kNonce) c
      (.cons (.str kRecipients) d .nil)))) kVersion = some a := rfl

theorem get_header_sender (a b c d : Value) :
    PairList.get (.cons (.str kVersion) a (.cons (.str kSender) b (.cons (.str kNonce) c
      (.cons (.str kRecipients) d .nil)))) kSender = some b := rfl

theorem get_header_nonce (a b c d : Value) :
    PairList.get (.cons (.str kVersion) a (.cons (.str kSender) b (.cons (.str kNonce) c
      (.cons (.str kRecipients) d .nil)))) kNonce = some c := rfl

theorem get_header_recipients (a b c d : Value) :
    PairList.get (.cons (.str kVersion) a (.cons (.str kSender) b (.cons (.str kNonce) c
      (.cons (.str kRecipients) d .nil)))) kRecipients = some d := rfl

theorem get_bundle_multi_ek (a b c : Value) :
    PairList.get (.cons (.str kEncryptionKey) a (.cons (.str kMacGroup) b
      (.cons (.str kMacKey) c .nil))) kEncryptionKey = some a := rfl

theorem get_bundle_multi_mg (a b c : Value) :
    PairList.get (.cons (.str kEncryptionKey) a (.cons (.str kMacGroup) b
      (.cons (.str kMacKey) c .nil))) kMacGroup = some b := rfl

theorem get_bundle_multi_mk (a b c : Value) :
    PairList.get (.cons (.str kEncryptionKey) a (.cons (.str kMacGroup) b
      (.cons (.str kMacKey) c .nil))) kMacKey = some c := rfl

theorem get_bundle_single_ek (a : Value) :
    PairList.get (.cons (.str kEncryptionKey) a .nil) kEncryptionKey = some a := rfl

theorem get_bundle_single_mg (a : Value) :
    PairList.get (.cons (.str kEncryptionKey) a .nil) kMacGroup = none := rfl

theorem get_bundle_single_mk (a : Value) :
    PairList.get (.cons (.str kEncryptionKey) a .nil) kMacKey = none := rfl

theorem valueListOf_getIdx : ∀ (l : List Value) (i : Nat),
    (valueListOf l).getIdx i = l[i]? := by
  intro l
  induction l with
  | nil => intro i; cases i <;> rfl
  | cons v rest ih =>
    intro i
    cases i with
    | zero => simp [valueListOf, ValueList.getIdx]
    | succ j => simp [valueListOf, ValueList.getIdx, ih j]

/-! ### The MAC check on honest and tampered chunk records -/

theorem macCheck_no_key (mgV : Option Value) (macsV : Value) (boxed : List Nat) :
    macCheck mgV none macsV boxed = .ok () := rfl

theorem macCheck_honest (G g : Nat) (mkf : Nat → List Nat) (boxed : List Nat) (hg : g < G) :
    macCheck (some (.int g)) (some (.bytes (mkf g)))
      (.arr (valueListOf (macsOf true ((List.range G).map mkf) boxed))) boxed = .ok () := by
  have hidx : (((List.range G).map mkf).map
      (fun mac_key => Value.bytes ((hmac_digest mac_key (boxed.take 16)).take 16)))[g]? =
      some (.bytes ((hmac_digest (mkf g) (boxed.take 16)).take 16)) := by
    rw [List.getElem?_map, List.getElem?_map, List.getElem?_range hg]
    rfl
  simp [macCheck, macsOf, valueListOf_getIdx, hidx]
  rw [List.getElem?_range hg]
  simp

theorem macCheck_tampered (G g : Nat) (mkf : Nat → List Nat) (boxed boxed' : List Nat)
    (hg : g < G) (hne : boxed'.take 16 ≠ boxed.take 16) :
    macCheck (some (.int g)) (some (.bytes (mkf g)))
      (.arr (valueListOf (macsOf true ((List.range G).map mkf) boxed))) boxed' =
      .error .macMismatch := by
  have hidx : (((List.range G).map mkf).map
      (fun mac_key => Value.bytes ((hmac_digest mac_key (boxed.take 16)).take 16)))[g]? =
      some (.bytes ((hmac_digest (mkf g) (boxed.take 16)).take 16)) := by
    rw [List.getElem?_map, List.getElem?_map, List.getElem?_range hg]
    rfl
  simp [macCheck, macsOf, valueListOf_getIdx, hidx, List.getElem?_range hg]
  exact fun hEq => hne (hmac_digest_take16_inj _ _ _ hEq).symm

/-! ### Stepping the decoder's chunk loop over emitted frames -/

theorem decryptLoop_frame_step (nm : Bool) (mks : List (List Nat)) (ek : List Nat)
    (mgV mkV : Option Value) (f k : Nat) (output ch rest : List Nat)
    (hpass : macCheck mgV mkV
      (.arr (valueListOf (macsOf nm mks (crypto_secretbox ch (to_bytes 24 k) ek))))
      (crypto_secretbox ch (to_bytes 24 k) ek) = .ok ()) :
    decryptLoop (f+1) (.bytes ek) mgV mkV k output
        (write_framed_msgpack (chunkRecord nm mks ek k ch) ++ rest) =
      if ch = [] then .ok output
      else decryptLoop f (.bytes ek) mgV mkV (k+1) (output ++ ch) rest := by
  simp only [decryptLoop, read_framed_msgpack_write, chunkRecord, get_macs_chunk₁,
    get_macs_chunk₂, hpass, crypto_secretbox_open_secretbox]

theorem decryptLoop_chunkFrames (nm : Bool) (mks : List (List Nat)) (ek : List Nat)
    (mgV mkV : Option Value)
    (hpass : ∀ (k : Nat) (ch : List Nat), macCheck mgV mkV
      (.arr (valueListOf (macsOf nm mks (crypto_secretbox ch (to_bytes 24 k) ek))))
      (crypto_secretbox ch (to_bytes 24 k) ek) = .ok ()) :
    ∀ (cs : List (List Nat)) (f k : Nat) (output tail : List Nat),
    (∀ ch ∈ cs, ch ≠ []) → cs.length ≤ f →
    decryptLoop (f+1) (.bytes ek) mgV mkV k output (chunkFrames nm mks ek k cs ++ tail) =
      decryptLoop (f+1-cs.length) (.bytes ek) mgV mkV (k + cs.length)
        (output ++ cs.flatten) tail := by
  intro cs
  induction cs with
  | nil =>
    intro f k output tail _ _
    simp [chunkFrames]
  | cons ch cs' ih =>
    intro f k output tail hne hf
    simp only [List.length_cons] at hf
    obtain ⟨f', rfl⟩ : ∃ f', f = f' + 1 := ⟨f - 1, by omega⟩
    rw [chunkFrames, List.append_assoc,
      decryptLoop_frame_step nm mks ek mgV mkV (f'+1) k output ch _ (hpass k ch),
      if_neg (hne ch (by simp)),
      ih (f') (k+1) (output ++ ch) tail (fun c hc => hne c (by simp [hc])) (by omega)]
    rw [show f' + 1 - cs'.length = f' + 1 + 1 - (cs'.length + 1) by omega,
      show k + 1 + cs'.length = k + (cs'.length + 1) by omega,
      List.flatten_cons, ← List.append_assoc]
    simp only [List.length_cons]

theorem decryptLoop_terminator (nm : Bool) (mks : List (List Nat)) (ek : List Nat)
    (mgV mkV : Option Value) (f k : Nat) (output junk : List Nat)
    (hpass : macCheck mgV mkV
      (.arr (valueListOf (macsOf nm mks (crypto_secretbox [] (to_bytes 24 k) ek))))
      (crypto_secretbox [] (to_bytes 24 k) ek) = .ok ()) :
    decryptLoop (f+1) (.bytes ek) mgV mkV k output
        (write_framed_msgpack (chunkRecord nm mks ek k []) ++ junk) = .ok output := by
  rw [decryptLoop_frame_step nm mks ek mgV mkV f k output [] junk hpass, if_pos rfl]

/-- A chunk record whose stored `macs` were computed over the original
ciphertext but whose `chunk` bytes differ within the first 16 bytes is
rejected by the MAC check, before the symmetric decryption runs. -/
theorem decryptLoop_tamper (ek : List Nat) (G g : Nat) (mkf : Nat → List Nat)
    (f k : Nat) (output junk : List Nat) (boxed boxed' : List Nat)
    (hg : g < G) (hne : boxed'.take 16 ≠ boxed.take 16) :
    decryptLoop (f+1) (.bytes ek) (some (.int g)) (some (.bytes (mkf g))) k output
        (write_framed_msgpack (.map (.cons (.str kMacs)
            (.arr (valueListOf (macsOf true ((List.range G).map mkf) boxed)))
          (.cons (.str kChunk) (.bytes boxed') .nil))) ++ junk) =
      .error .macMismatch := by
  simp only [decryptLoop, read_framed_msgpack_write, get_macs_chunk₁, get_macs_chunk₂,
    macCheck_tampered G g mkf boxed boxed' hg hne]

/-! ### Stepping `decrypt` through a well-formed header -/

/-- On a frame carrying a well-formed version-1 header, `decrypt`
reduces to the recipient scan followed by `decryptBody`. -/
theorem decrypt_header_step (spk ns : List Nat) (entries : ValueList) (stream : List Nat)
    (sk : Nat) :
    decrypt (write_framed_msgpack (.map (.cons (.str kVersion) (.int FORMAT_VERSION)
        (.cons (.str kSender) (.bytes spk) (.cons (.str kNonce) (.bytes ns)
        (.cons (.str kRecipients) (.arr entries) .nil))))) ++ stream) sk =
      match findRec entries (crypto_scalarmult_base sk) 0 with
      | .error e => .error e
      | .ok (recipient_num, boxedKeysV) =>
          decryptBody sk (.bytes spk) (.bytes ns) recipient_num boxedKeysV stream := by
  simp only [decrypt, read_framed_msgpack_write, get_header_version, get_header_sender,
    get_header_nonce, get_header_recipients]
  simp [FORMAT_VERSION]

/-- Opening the honest wrapped-keys box: `decryptBody` on the entry the
encoder built for this recipient reduces to the key-bundle lookups and
the chunk loop. -/
theorem decryptBody_honest (sk sp : Nat) (ns : List Nat) (i : Nat) (bundle : Value)
    (stream : List Nat) :
    decryptBody sk (.bytes (crypto_scalarmult_base sp)) (.bytes ns) i
      (.bytes (crypto_box (encValue bundle) (ns ++ to_bytes 8 i) sp
        (crypto_scalarmult_base sk))) stream =
      match bundle with
      | .map kkvs =>
        match kkvs.get kEncryptionKey with
        | none => .error .typeError
        | some ekV =>
          decryptLoop (stream.length + 1) ekV (kkvs.get kMacGroup) (kkvs.get kMacKey) 0 [] stream
      | _ => .error .typeError := by
  simp only [decryptBody, crypto_box_open_box]
  rw [show encValue bundle = encValue bundle ++ [] from (List.append_nil _).symm,
    unpack_value_enc]

/-! ### The decoder inverts the encoder -/

/-- Running the whole chunk loop over the emitted frames: the data
frames accumulate the message, the terminator frame stops the loop,
trailing junk is never consumed. -/
theorem decryptLoop_full (nm : Bool) (mks : List (List Nat)) (ek : List Nat)
    (mgV mkV : Option Value)
    (hpass : ∀ (k : Nat) (ch : List Nat), macCheck mgV mkV
      (.arr (valueListOf (macsOf nm mks (crypto_secretbox ch (to_bytes 24 k) ek))))
      (crypto_secretbox ch (to_bytes 24 k) ek) = .ok ())
    (front : List (List Nat)) (junk : List Nat) (hfr : ∀ ch ∈ front, ch ≠ []) :
    decryptLoop ((chunkFrames nm mks ek 0 (front ++ [[]]) ++ junk).length + 1)
      (.bytes ek) mgV mkV 0 [] (chunkFrames nm mks ek 0 (front ++ [[]]) ++ junk) =
      .ok front.flatten := by
  have hsplit : chunkFrames nm mks ek 0 (front ++ [[]]) =
      chunkFrames nm mks ek 0 front ++
        (write_framed_msgpack (chunkRecord nm mks ek (0 + front.length) []) ++ []) := by
    rw [chunkFrames_append]
    rfl
  have hlen : front.length ≤ (chunkFrames nm mks ek 0 (front ++ [[]]) ++ junk).length := by
    have h1 := chunkFrames_length_ge nm mks ek 0 (front ++ [[]])
    simp only [List.length_append] at *
    omega
  obtain ⟨L, hL⟩ : ∃ L, (chunkFrames nm mks ek 0 (front ++ [[]]) ++ junk).length = L :=
    ⟨_, rfl⟩
  rw [hL] at hlen ⊢
  rw [hsplit, List.append_nil, List.append_assoc]
  rw [decryptLoop_chunkFrames nm mks ek mgV mkV hpass front L 0 []
    (write_framed_msgpack (chunkRecord nm mks ek (0 + front.length) []) ++ junk) hfr hlen]
  obtain ⟨f', hf'⟩ : ∃ f', L - front.length = f' := ⟨_, rfl⟩
  rw [show L + 1 - front.length = f' + 1 by omega]
  rw [show (0 : Nat) + front.length = front.length by omega] at *
  rw [List.nil_append]
  rw [decryptLoop_terminator nm mks ek mgV mkV f' front.length front.flatten junk
    (hpass front.length [])]

/-- Central round-trip lemma: decrypting an encoded blob (with any
trailing junk) with any recipient private key whose public key is
listed in some group recovers the message. -/
theorem decrypt_encrypt_ok (sp : Nat) (groups_sk : List (List Nat)) (sk : Nat)
    (message : List Nat) (chunk_size : Nat) (r : Urandom) (junk : List Nat)
    (hsk : sk ∈ groups_sk.flatten) (hcs : 1 ≤ chunk_size) :
    decrypt (encrypt sp (groups_sk.map (List.map crypto_scalarmult_base))
      message chunk_size r ++ junk) sk = .ok message := by
  obtain ⟨front, hd1, hd2, hd3⟩ :=
    chunks_with_empty_decomp message.length message chunk_size (le_refl _) hcs
  have hmemb : crypto_scalarmult_base sk ∈
      (groups_sk.map (List.map crypto_scalarmult_base)).flatten := by
    rw [flatten_map_map]
    exact List.mem_map_of_mem _ hsk
  by_cases hG : 1 < groups_sk.length
  · -- more than one group: MACs everywhere
    have hnm : decide (1 < (groups_sk.map (List.map crypto_scalarmult_base)).length)
        = true := by simp [List.length_map]; omega
    simp only [encrypt, headerValue, hnm, if_true, List.append_assoc]
    rw [decrypt_header_step]
    rw [entriesAll_eq_pairs sp r.recipients_nonce_start true r.encryption_key r.mac_key]
    obtain ⟨pre, b, suf, h1, h2⟩ := mem_fst_decomp
      (pairsAll sp r.recipients_nonce_start true r.encryption_key r.mac_key 0 0
        (groups_sk.map (List.map crypto_scalarmult_base)))
      (crypto_scalarmult_base sk)
      (by rw [pairsAll_fst]; exact hmemb)
    rw [h1, findRec_pairs_found pre _ b suf 0 h2]
    simp only [Nat.zero_add]
    have hgetp : (pre ++ (crypto_scalarmult_base sk, b) :: suf)[pre.length]? =
        some (crypto_scalarmult_base sk, b) := by
      rw [List.getElem?_append, if_neg (lt_irrefl _), Nat.sub_self]
      simp
    obtain ⟨g, pub, hg0, hgl, hpr⟩ := pairsAll_get sp r.recipients_nonce_start true
      r.encryption_key r.mac_key (groups_sk.map (List.map crypto_scalarmult_base)) 0 0
      pre.length _ (by rw [h1]; exact hgetp)
    obtain ⟨hpub, hb⟩ := Prod.ext_iff.mp hpr
    simp only at hpub hb
    rw [← hpub] at hb
    simp only [Nat.zero_add] at hb hgl
    rw [hb, decryptBody_honest]
    simp only [keysBundle, if_true, get_bundle_multi_ek, get_bundle_multi_mg,
      get_bundle_multi_mk, Nat.zero_add]
    rw [hd1, ← hd2]
    exact decryptLoop_full true _ r.encryption_key (some (.int g))
      (some (.bytes (r.mac_key g)))
      (fun k ch => macCheck_honest _ g r.mac_key _ hgl) front junk hd3
  · -- a single group (or none): no MACs anywhere
    have hnm : decide (1 < (groups_sk.map (List.map crypto_scalarmult_base)).length)
        = false := by simp [List.length_map]; omega
    simp only [encrypt, headerValue, hnm, if_false, Bool.false_eq_true, List.append_assoc]
    rw [decrypt_header_step]
    rw [entriesAll_eq_pairs sp r.recipients_nonce_start false r.encryption_key r.mac_key]
    obtain ⟨pre, b, suf, h1, h2⟩ := mem_fst_decomp
      (pairsAll sp r.recipients_nonce_start false r.encryption_key r.mac_key 0 0
        (groups_sk.map (List.map crypto_scalarmult_base)))
      (crypto_scalarmult_base sk)
      (by rw [pairsAll_fst]; exact hmemb)
    rw [h1, findRec_pairs_found pre _ b suf 0 h2]
    simp only [Nat.zero_add]
    have hgetp : (pre ++ (crypto_scalarmult_base sk, b) :: suf)[pre.length]? =
        some (crypto_scalarmult_base sk, b) := by
      rw [List.getElem?_append, if_neg (lt_irrefl _), Nat.sub_self]
      simp
    obtain ⟨g, pub, hg0, hgl, hpr⟩ := pairsAll_get sp r.recipients_nonce_start false
      r.encryption_key r.mac_key (groups_sk.map (List.map crypto_scalarmult_base)) 0 0
      pre.length _ (by rw [h1]; exact hgetp)
    obtain ⟨hpub, hb⟩ := Prod.ext_iff.mp hpr
    simp only at hpub hb
    rw [← hpub] at hb
    simp only [Nat.zero_add] at hb hgl
    rw [hb, decryptBody_honest]
    simp only [keysBundle, if_false, Bool.false_eq_true, get_bundle_single_ek,
      get_bundle_single_mg, get_bundle_single_mk]
    rw [hd1, ← hd2]
    exact decryptLoop_full false [] r.encryption_key none none
      (fun k ch => macCheck_no_key _ _ _) front junk hd3

/-! ### Claim theorems -/

/-- C1: for every message (including the empty one), every chunk size
≥ 1, and every recipient-group layout containing at least the one
recipient used for decryption, encrypting with the sender's private key
and decrypting with that recipient's private key returns exactly the
message. -/
theorem claim_C1_roundtrip (sender_private : Nat) (groups_sk : List (List Nat)) (sk : Nat)
    (message : List Nat) (chunk_size : Nat) (r : Urandom)
    (hsk : sk ∈ groups_sk.flatten) (hcs : 1 ≤ chunk_size) :
    decrypt (encrypt sender_private (groups_sk.map (List.map crypto_scalarmult_base))
      message chunk_size r) sk = .ok message := by
  have h := decrypt_encrypt_ok sender_private groups_sk sk message chunk_size r [] hsk hcs
  rwa [List.append_nil] at h

/-- Witness for C1 at a concrete two-group layout. -/
theorem claim_C1_roundtrip_witness :
    ((5 : Nat) ∈ [[5], [7]].flatten ∧ (1 : Nat) ≤ 2) ∧
    decrypt (encrypt 3 ([[5], [7]].map (List.map crypto_scalarmult_base)) [10, 200, 31] 2
      ⟨[1, 2], [9], fun g => [g + 1]⟩) 5 = .ok [10, 200, 31] :=
  ⟨⟨by decide, by decide⟩,
    claim_C1_roundtrip 3 [[5], [7]] 5 [10, 200, 31] 2 ⟨[1, 2], [9], fun g => [g + 1]⟩
      (by decide) (by decide)⟩

/-- C3 counterexample: the reader discards the length prefix, so on a
frame whose prefix lies (it decodes to 5) the reader still succeeds,
consuming only the 2 bytes of the body's own self-delimiting encoding,
not 5. -/
theorem claim_C3_counterexample :
    read_framed_msgpack [0, 5, 0, 7] = some (.int 7, []) ∧
    unpack_value [0, 5, 0, 7] = some (.int 5, [0, 7]) ∧
    (encValue (.int 7)).length = 2 ∧ (2 : Nat) ≠ 5 :=
  ⟨rfl, rfl, rfl, by decide⟩

/-- C3 amended: on frames actually produced by `write_framed_msgpack`
the decoded length prefix equals the body length, and the reader then
consumes exactly the body (leaving exactly the trailing rest), so the
number of body bytes consumed equals the prefix value; in general the
reader ignores the prefix and consumes the body's own self-delimiting
encoding. -/
theorem claim_C3_amended (obj : Value) (rest : List Nat) :
    read_framed_msgpack (write_framed_msgpack obj ++ rest) = some (obj, rest) ∧
    write_framed_msgpack obj = encValue (.int (encValue obj).length) ++ encValue obj :=
  ⟨read_framed_msgpack_write obj rest, rfl⟩

/-- C4: the encoder emits the header frame followed by exactly
`ceil(len(message)/chunk_size) + 1 = (len + cs - 1)/cs + 1` chunk
frames (one per chunk, minimum 1 for the empty message), and the final
chunk is the zero-length terminator plaintext. -/
theorem claim_C4_chunk_frames (sender_private : Nat) (groups : List (List (List Nat)))
    (message : List Nat) (chunk_size : Nat) (r : Urandom) (hcs : 1 ≤ chunk_size) :
    encrypt sender_private groups message chunk_size r =
      write_framed_msgpack (headerValue sender_private groups r) ++
      (chunkFramesList (decide (1 < groups.length))
        (if decide (1 < groups.length) then (List.range groups.length).map r.mac_key else [])
        r.encryption_key 0 (chunks_with_empty message chunk_size)).flatten ∧
    (chunkFramesList (decide (1 < groups.length))
        (if decide (1 < groups.length) then (List.range groups.length).map r.mac_key else [])
        r.encryption_key 0 (chunks_with_empty message chunk_size)).length =
      (message.length + chunk_size - 1) / chunk_size + 1 ∧
    (chunks_with_empty message chunk_size).getLast? = some [] := by
  refine ⟨?_, ?_, ?_⟩
  · simp [encrypt, chunkFrames_eq_flatten]
  · rw [chunkFramesList_length,
      chunks_with_empty_length message.length message chunk_size (le_refl _) hcs]
  · obtain ⟨front, hd1, _, _⟩ :=
      chunks_with_empty_decomp message.length message chunk_size (le_refl _) hcs
    rw [hd1]
    exact List.getLast?_concat _

/-- Witness for C4 at a concrete message and chunk size. -/
theorem claim_C4_chunk_frames_witness :
    (1 : Nat) ≤ 2 ∧
    ((chunkFramesList (decide (1 < ([[[5]], [[7]]] : List (List (List Nat))).length))
        (if decide (1 < ([[[5]], [[7]]] : List (List (List Nat))).length) then
          (List.range ([[[5]], [[7]]] : List (List (List Nat))).length).map
            (fun g => [g + 1]) else [])
        [1, 2] 0 (chunks_with_empty [10, 20, 30] 2)).length =
      (([10, 20, 30] : List Nat).length + 2 - 1) / 2 + 1 ∧
    (chunks_with_empty [10, 20, 30] 2).getLast? = some []) :=
  ⟨by decide,
    (claim_C4_chunk_frames 3 [[[5]], [[7]]] [10, 20, 30] 2
      ⟨[1, 2], [9], fun g => [g + 1]⟩ (by decide)).2⟩

/-- C8: within one encode call the derived nonces are pairwise distinct
in each family: distinct recipient indices below `2^64` give distinct
unwrap nonces `nonce_start ‖ to_bytes 8 index`, and distinct chunk
indices below `2^192` give distinct 24-byte big-endian chunk nonces
(`to_bytes` fails above those bounds in the source, so indices always
lie below them). -/
theorem claim_C8_nonces (nonce_start : List Nat) (i j ci cj : Nat)
    (hij : i ≠ j) (hi : i < 256 ^ 8) (hj : j < 256 ^ 8)
    (hcij : ci ≠ cj) (hci : ci < 256 ^ 24) (hcj : cj < 256 ^ 24) :
    nonce_start ++ to_bytes 8 i ≠ nonce_start ++ to_bytes 8 j ∧
    to_bytes 24 ci ≠ to_bytes 24 cj := by
  constructor
  · intro h
    exact hij (to_bytes_inj 8 i j hi hj (List.append_cancel_left h))
  · intro h
    exact hcij (to_bytes_inj 24 ci cj hci hcj h)

/-- Witness for C8 at concrete indices. -/
theorem claim_C8_nonces_witness :
    [9] ++ to_bytes 8 0 ≠ [9] ++ to_bytes 8 1 ∧ to_bytes 24 0 ≠ to_bytes 24 1 :=
  claim_C8_nonces [9] 0 1 0 1 (by decide) (by decide) (by decide) (by decide)
    (by decide) (by decide)

/-- C9: the chunk loop is atomic in its accumulated output buffer: the
result of running it with any partially accumulated `output` is the
result of the fresh run with the accumulated buffer prepended on
success, and the identical bare error on failure — an error never
carries or depends on the partially accumulated plaintext, which is
discarded exactly as `decrypt` discards its `output` buffer when an
exception propagates. -/
theorem except_map_map (X : Except DecErr (List Nat)) (a b : List Nat) :
    (X.map (fun t => b ++ t)).map (fun t => a ++ t) = X.map (fun t => (a ++ b) ++ t) := by
  cases X <;> simp [Except.map, List.append_assoc]

theorem claim_C9_loop_atomic : ∀ (fuel : Nat) (ekV : Value) (mgV mkV : Option Value)
    (chunknum : Nat) (output stream : List Nat),
    decryptLoop fuel ekV mgV mkV chunknum output stream =
      (decryptLoop fuel ekV mgV mkV chunknum [] stream).map (output ++ ·) := by
  intro fuel
  induction fuel with
  | zero => intro ekV mgV mkV k output stream; rfl
  | succ f ih =>
    intro ekV mgV mkV k output stream
    simp only [decryptLoop]
    repeat' split
    all_goals try rfl
    all_goals try (simp [Except.map]; done)
    all_goals simp only [List.nil_append]
    all_goals rw [ih, ← except_map_map, ← ih]

/-! ### `recipient key not found` is raised only by the recipient scan -/

theorem macCheck_ne_notfound (mgV mkV : Option Value) (macsV : Value) (boxed : List Nat) :
    macCheck mgV mkV macsV boxed ≠ .error .recipientNotFound := by
  simp only [macCheck]
  repeat' split
  all_goals simp

theorem decryptLoop_ne_notfound : ∀ (fuel : Nat) (ekV : Value) (mgV mkV : Option Value)
    (k : Nat) (output stream : List Nat),
    decryptLoop fuel ekV mgV mkV k output stream ≠ .error .recipientNotFound := by
  intro fuel
  induction fuel with
  | zero => intro _ _ _ _ _ _; simp [decryptLoop]
  | succ f ih =>
    intro ekV mgV mkV k output stream
    simp only [decryptLoop]
    rcases hrf : read_framed_msgpack stream with _ | ⟨cm, rest⟩
    · simp
    · rcases cm with n | b | s | vs | kvs <;> try simp
      rcases hm : kvs.get kMacs with _ | macsV
      · simp
      · rcases hc : kvs.get kChunk with _ | chunkV
        · simp
        · rcases chunkV with n | boxed | s | vs' | kvs' <;> try simp
          rcases hmc : macCheck mgV mkV macsV boxed with e | u
          · simp only [ne_eq, Except.error.injEq]
            intro h
            subst h
            exact macCheck_ne_notfound _ _ _ _ hmc
          · rcases ekV with n | ek | s | vs'' | kvs'' <;> try simp
            rcases hop : crypto_secretbox_open boxed (to_bytes 24 k) ek with _ | chunk
            · simp
            · by_cases hch : chunk = []
              · simp [hch]
              · simp only [if_neg hch]
                exact ih _ _ _ _ _ _

theorem decryptBody_ne_notfound (sk : Nat) (senderV nonceV : Value) (i : Nat)
    (boxedKeysV : Value) (stream : List Nat) :
    decryptBody sk senderV nonceV i boxedKeysV stream ≠ .error .recipientNotFound := by
  simp only [decryptBody]
  repeat' split
  all_goals try simp
  exact decryptLoop_ne_notfound _ _ _ _ _ _ _

/-- C7: on a blob whose header is well-formed (version 1, byte-string
sender and nonce, recipients a list of two-element byte-string pairs),
`decrypt` fails with `recipientNotFound` exactly when the public key
derived from the supplied private key matches no entry; and when it
does match, decryption proceeds with the matched entry's position as
the recipient index and that entry's wrapped key bytes. -/
theorem claim_C7_recipient_not_found (spk ns : List Nat)
    (prs : List (List Nat × List Nat)) (stream : List Nat) (sk : Nat) :
    (decrypt (write_framed_msgpack (.map (.cons (.str kVersion) (.int FORMAT_VERSION)
        (.cons (.str kSender) (.bytes spk) (.cons (.str kNonce) (.bytes ns)
        (.cons (.str kRecipients) (.arr (valueListOf (prs.map pairEntry))) .nil))))) ++
        stream) sk = .error .recipientNotFound ↔
      crypto_scalarmult_base sk ∉ prs.map Prod.fst) ∧
    (∀ (pre : List (List Nat × List Nat)) (b : List Nat)
        (suf : List (List Nat × List Nat)),
      prs = pre ++ (crypto_scalarmult_base sk, b) :: suf →
      crypto_scalarmult_base sk ∉ pre.map Prod.fst →
      decrypt (write_framed_msgpack (.map (.cons (.str kVersion) (.int FORMAT_VERSION)
        (.cons (.str kSender) (.bytes spk) (.cons (.str kNonce) (.bytes ns)
        (.cons (.str kRecipients) (.arr (valueListOf (prs.map pairEntry))) .nil))))) ++
        stream) sk =
        decryptBody sk (.bytes spk) (.bytes ns) pre.length (.bytes b) stream) := by
  constructor
  · constructor
    · intro h
      by_contra hmem
      obtain ⟨pre, b, suf, hdec, hpre⟩ := mem_fst_decomp prs _ hmem
      rw [decrypt_header_step, hdec, findRec_pairs_found pre _ b suf 0 hpre] at h
      simp only [Nat.zero_add] at h
      exact decryptBody_ne_notfound _ _ _ _ _ _ h
    · intro hmem
      rw [decrypt_header_step, findRec_pairs_not_found prs _ 0 hmem]
  · intro pre b suf hdec hpre
    rw [decrypt_header_step, hdec, findRec_pairs_found pre _ b suf 0 hpre]
    simp only [Nat.zero_add]

/-- Witness for C7 at a concrete header with one non-matching entry. -/
theorem claim_C7_recipient_not_found_witness :
    (decrypt (write_framed_msgpack (.map (.cons (.str kVersion) (.int FORMAT_VERSION)
        (.cons (.str kSender) (.bytes [1]) (.cons (.str kNonce) (.bytes [9])
        (.cons (.str kRecipients)
          (.arr (valueListOf (([([0], [1])] : List (List Nat × List Nat)).map pairEntry)))
          .nil))))) ++ []) 5 = .error .recipientNotFound ↔
      crypto_scalarmult_base 5 ∉ ([([0], [1])] : List (List Nat × List Nat)).map Prod.fst) ∧
    (∀ (pre : List (List Nat × List Nat)) (b : List Nat)
        (suf : List (List Nat × List Nat)),
      ([([0], [1])] : List (List Nat × List Nat)) =
        pre ++ (crypto_scalarmult_base 5, b) :: suf →
      crypto_scalarmult_base 5 ∉ pre.map Prod.fst →
      decrypt (write_framed_msgpack (.map (.cons (.str kVersion) (.int FORMAT_VERSION)
        (.cons (.str kSender) (.bytes [1]) (.cons (.str kNonce) (.bytes [9])
        (.cons (.str kRecipients)
          (.arr (valueListOf (([([0], [1])] : List (List Nat × List Nat)).map pairEntry)))
          .nil))))) ++ []) 5 =
        decryptBody 5 (.bytes [1]) (.bytes [9]) pre.length (.bytes b) []) :=
  claim_C7_recipient_not_found [1] [9] [([0], [1])] [] 5

/-- C10: when the recipient's public key occurs at more than one
position in a well-formed recipients list, `decrypt` proceeds with the
first occurrence: both the wrapped key bytes it opens and the
recipient index used for the unwrap nonce come from the first matching
entry, regardless of the later duplicate. -/
theorem claim_C10_first_match (spk ns : List Nat)
    (pre mid suf : List (List Nat × List Nat)) (b₁ b₂ : List Nat)
    (stream : List Nat) (sk : Nat)
    (hpre : crypto_scalarmult_base sk ∉ pre.map Prod.fst) :
    decrypt (write_framed_msgpack (.map (.cons (.str kVersion) (.int FORMAT_VERSION)
        (.cons (.str kSender) (.bytes spk) (.cons (.str kNonce) (.bytes ns)
        (.cons (.str kRecipients) (.arr (valueListOf
          ((pre ++ (crypto_scalarmult_base sk, b₁) ::
            (mid ++ (crypto_scalarmult_base sk, b₂) :: suf)).map pairEntry))) .nil))))) ++
        stream) sk =
      decryptBody sk (.bytes spk) (.bytes ns) pre.length (.bytes b₁) stream := by
  rw [decrypt_header_step, findRec_pairs_found pre _ b₁
    (mid ++ (crypto_scalarmult_base sk, b₂) :: suf) 0 hpre]
  simp only [Nat.zero_add]

/-- Witness for C10 at a concrete duplicated recipient key. -/
theorem claim_C10_first_match_witness :
    crypto_scalarmult_base 5 ∉ ([([0], [8])] : List (List Nat × List Nat)).map Prod.fst ∧
    decrypt (write_framed_msgpack (.map (.cons (.str kVersion) (.int FORMAT_VERSION)
        (.cons (.str kSender) (.bytes [1]) (.cons (.str kNonce) (.bytes [9])
        (.cons (.str kRecipients) (.arr (valueListOf
          (([([0], [8])] ++ (crypto_scalarmult_base 5, [2]) ::
            ([] ++ (crypto_scalarmult_base 5, [3]) :: [])).map pairEntry))) .nil))))) ++
        [7]) 5 =
      decryptBody 5 (.bytes [1]) (.bytes [9])
        ([([0], [8])] : List (List Nat × List Nat)).length (.bytes [2]) [7] :=
  ⟨by decide,
    claim_C10_first_match [1] [9] [([0], [8])] [] [] [2] [3] [7] 5 (by decide)⟩

/-- C5: the decoder stops at the first chunk record whose ciphertext
decrypts to the zero-length plaintext: whatever bytes follow that frame
in the stream, they are never read and the accumulated output is
returned unchanged; consequently appending junk after an encoded blob
does not change what `decrypt` returns. -/
theorem claim_C5_stops_at_terminator (ek : List Nat) (mgV mkV : Option Value)
    (kvs : PairList) (macsV : Value) (boxed : List Nat) (f k : Nat) (output : List Nat)
    (sender_private sk : Nat) (groups_sk : List (List Nat)) (message : List Nat)
    (chunk_size : Nat) (r : Urandom) (junk' : List Nat)
    (hm : kvs.get kMacs = some macsV) (hc : kvs.get kChunk = some (.bytes boxed))
    (hmac : macCheck mgV mkV macsV boxed = .ok ())
    (hopen : crypto_secretbox_open boxed (to_bytes 24 k) ek = some [])
    (hsk : sk ∈ groups_sk.flatten) (hcs : 1 ≤ chunk_size) :
    (∀ junk : List Nat,
      decryptLoop (f+1) (.bytes ek) mgV mkV k output
        (write_framed_msgpack (.map kvs) ++ junk) = .ok output) ∧
    decrypt (encrypt sender_private (groups_sk.map (List.map crypto_scalarmult_base))
        message chunk_size r ++ junk') sk =
      decrypt (encrypt sender_private (groups_sk.map (List.map crypto_scalarmult_base))
        message chunk_size r) sk := by
  constructor
  · intro junk
    simp [decryptLoop, read_framed_msgpack_write, hm, hc, hmac, hopen]
  · have h1 := decrypt_encrypt_ok sender_private groups_sk sk message chunk_size r junk' hsk hcs
    have h2 := decrypt_encrypt_ok sender_private groups_sk sk message chunk_size r [] hsk hcs
    rw [List.append_nil] at h2
    rw [h1, h2]

/-- Witness for C5 at a concrete terminator record and blob. -/
theorem claim_C5_stops_at_terminator_witness :
    ((∀ junk : List Nat,
      decryptLoop 1 (.bytes [1, 2]) none none 0 [5]
        (write_framed_msgpack (.map (.cons (.str kMacs) (.arr .nil)
          (.cons (.str kChunk)
            (.bytes (crypto_secretbox [] (to_bytes 24 0) [1, 2])) .nil))) ++ junk) =
        .ok [5]) ∧
    decrypt (encrypt 3 ([[5], [7]].map (List.map crypto_scalarmult_base)) [10, 20] 2
        ⟨[1, 2], [9], fun g => [g + 1]⟩ ++ [0, 1, 2, 3]) 5 =
      decrypt (encrypt 3 ([[5], [7]].map (List.map crypto_scalarmult_base)) [10, 20] 2
        ⟨[1, 2], [9], fun g => [g + 1]⟩) 5) :=
  claim_C5_stops_at_terminator [1, 2] none none
    (.cons (.str kMacs) (.arr .nil) (.cons (.str kChunk)
      (.bytes (crypto_secretbox [] (to_bytes 24 0) [1, 2])) .nil))
    (.arr .nil) (crypto_secretbox [] (to_bytes 24 0) [1, 2]) 0 0 [5]
    3 5 [[5], [7]] [10, 20] 2 ⟨[1, 2], [9], fun g => [g + 1]⟩ [0, 1, 2, 3]
    rfl rfl rfl (crypto_secretbox_open_secretbox [] (to_bytes 24 0) [1, 2])
    (by decide) (by decide)

/-- C6: MAC material exists exactly when there is more than one
recipient group: the encoder's output is the header frame plus the
chunk frames built with `need_macs = (1 < #groups)`; each emitted
chunk record's `macs` list is non-empty iff `1 < #groups`; every key
bundle always carries `encryption_key` and carries `mac_group` and
`mac_key` iff `1 < #groups`; and every wrapped recipient entry wraps
exactly such a bundle for its group. -/
theorem claim_C6_mac_fields_iff (sender_private : Nat) (groups : List (List (List Nat)))
    (message : List Nat) (chunk_size : Nat) (r : Urandom) :
    encrypt sender_private groups message chunk_size r =
      write_framed_msgpack (headerValue sender_private groups r) ++
        chunkFrames (decide (1 < groups.length))
          (if decide (1 < groups.length) then
            (List.range groups.length).map r.mac_key else [])
          r.encryption_key 0 (chunks_with_empty message chunk_size) ∧
    (∀ boxed : List Nat,
      macsOf (decide (1 < groups.length))
        (if decide (1 < groups.length) then
          (List.range groups.length).map r.mac_key else []) boxed ≠ [] ↔
      1 < groups.length) ∧
    (∀ (g : Nat) (mk : List Nat), ∃ kkvs,
      keysBundle (decide (1 < groups.length)) r.encryption_key g mk = .map kkvs ∧
      kkvs.get kEncryptionKey = some (.bytes r.encryption_key) ∧
      ((kkvs.get kMacGroup).isSome ↔ 1 < groups.length) ∧
      ((kkvs.get kMacKey).isSome ↔ 1 < groups.length)) ∧
    (∀ (i : Nat) (pr : List Nat × List Nat),
      (pairsAll sender_private r.recipients_nonce_start (decide (1 < groups.length))
        r.encryption_key r.mac_key 0 0 groups)[i]? = some pr →
      ∃ g pub, g < groups.length ∧
        pr = (pub, crypto_box (encValue (keysBundle (decide (1 < groups.length))
          r.encryption_key g (r.mac_key g)))
          (r.recipients_nonce_start ++ to_bytes 8 i) sender_private pub)) := by
  refine ⟨rfl, ?_, ?_, ?_⟩
  · intro boxed
    by_cases hG : 1 < groups.length
    · have hd : decide (1 < groups.length) = true := by simp [hG]
      rw [hd]
      simp only [hG, iff_true]
      intro hemp
      simp [macsOf, List.range_eq_nil] at hemp
      simp [hemp] at hG
    · have hd : decide (1 < groups.length) = false := by simp [hG]
      rw [hd]
      simp [macsOf, hG]
  · intro g mk
    by_cases hG : 1 < groups.length
    · have hd : decide (1 < groups.length) = true := by simp [hG]
      rw [hd]
      refine ⟨.cons (.str kEncryptionKey) (.bytes r.encryption_key)
        (.cons (.str kMacGroup) (.int g) (.cons (.str kMacKey) (.bytes mk) .nil)),
        by simp [keysBundle], ?_, ?_, ?_⟩
      · exact get_bundle_multi_ek _ _ _
      · rw [get_bundle_multi_mg]
        simp [hG]
      · rw [get_bundle_multi_mk]
        simp [hG]
    · have hd : decide (1 < groups.length) = false := by simp [hG]
      rw [hd]
      refine ⟨.cons (.str kEncryptionKey) (.bytes r.encryption_key) .nil,
        by simp [keysBundle], ?_, ?_, ?_⟩
      · exact get_bundle_single_ek _
      · rw [get_bundle_single_mg]
        simp [hG]
      · rw [get_bundle_single_mk]
        simp [hG]
  · intro i pr h
    obtain ⟨g, pub, _, hgl, hpr⟩ := pairsAll_get sender_private r.recipients_nonce_start
      (decide (1 < groups.length)) r.encryption_key r.mac_key groups 0 0 i pr h
    simp only [Nat.zero_add] at hgl hpr
    exact ⟨g, pub, hgl, hpr⟩

/-! ### Bit-flipping a chunk ciphertext (claim C2) -/

/-- Flip bit `bit` of the byte at position `pos`. -/
def flipBit (l : List Nat) (pos bit : Nat) : List Nat :=
  l.set pos ((l.getD pos 0) ^^^ 2 ^ bit)

theorem flipBit_take16_ne (l : List Nat) (pos bit : Nat) (hpos : pos < 16)
    (hlen : 16 ≤ l.length) : (flipBit l pos bit).take 16 ≠ l.take 16 := by
  intro hEq
  have hplen : pos < l.length := by omega
  have h1 : ((flipBit l pos bit).take 16)[pos]? = (l.take 16)[pos]? := by rw [hEq]
  rw [List.getElem?_take_of_lt hpos, List.getElem?_take_of_lt hpos, flipBit,
    List.getElem?_set_self hplen, List.getElem?_eq_getElem hplen,
    List.getD_eq_getElem l 0 hplen] at h1
  have hx : l[pos] ^^^ 2 ^ bit = l[pos] := Option.some.inj h1
  have h2 : (2 : Nat) ^ bit = 0 := by
    calc (2 : Nat) ^ bit = l[pos] ^^^ (l[pos] ^^^ 2 ^ bit) := by
          rw [← Nat.xor_assoc, Nat.xor_self, Nat.zero_xor]
      _ = l[pos] ^^^ l[pos] := by rw [hx]
      _ = 0 := Nat.xor_self _
  exact absurd h2 (Nat.two_pow_pos bit).ne'

/-- Tampering operator for a chunk record: flip one bit of the stored
chunk ciphertext, leaving the stored `macs` untouched (the re-encoded
record has the same byte length, so this is the frame-level image of
flipping that one bit inside the encoded blob). -/
def tamperChunk (record : Value) (pos bit : Nat) : Value :=
  match record with
  | .map (.cons km macsV (.cons kc (.bytes boxed) .nil)) =>
    .map (.cons km macsV (.cons kc (.bytes (flipBit boxed pos bit)) .nil))
  | v => v

/-- In a multi-group encode, decrypting any stream behind the honest
header reduces to the chunk loop holding this recipient's group MAC
key. -/
theorem decrypt_header_multi (sp : Nat) (groups_sk : List (List Nat)) (sk : Nat)
    (r : Urandom) (stream : List Nat)
    (hG : 1 < groups_sk.length) (hsk : sk ∈ groups_sk.flatten) :
    ∃ g, g < groups_sk.length ∧
    decrypt (write_framed_msgpack (headerValue sp
        (groups_sk.map (List.map crypto_scalarmult_base)) r) ++ stream) sk =
      decryptLoop (stream.length + 1) (.bytes r.encryption_key) (some (.int g))
        (some (.bytes (r.mac_key g))) 0 [] stream := by
  have hnm : decide (1 < (groups_sk.map (List.map crypto_scalarmult_base)).length)
      = true := by simp [List.length_map]; omega
  have hmemb : crypto_scalarmult_base sk ∈
      (groups_sk.map (List.map crypto_scalarmult_base)).flatten := by
    rw [flatten_map_map]
    exact List.mem_map_of_mem _ hsk
  obtain ⟨pre, b, suf, h1, h2⟩ := mem_fst_decomp
    (pairsAll sp r.recipients_nonce_start true r.encryption_key r.mac_key 0 0
      (groups_sk.map (List.map crypto_scalarmult_base)))
    (crypto_scalarmult_base sk)
    (by rw [pairsAll_fst]; exact hmemb)
  have hgetp : (pre ++ (crypto_scalarmult_base sk, b) :: suf)[pre.length]? =
      some (crypto_scalarmult_base sk, b) := by
    rw [List.getElem?_append, if_neg (lt_irrefl _), Nat.sub_self]
    simp
  obtain ⟨g, pub, hg0, hgl, hpr⟩ := pairsAll_get sp r.recipients_nonce_start true
    r.encryption_key r.mac_key (groups_sk.map (List.map crypto_scalarmult_base)) 0 0
    pre.length _ (by rw [h1]; exact hgetp)
  obtain ⟨hpub, hb⟩ := Prod.ext_iff.mp hpr
  simp only at hpub hb
  rw [← hpub] at hb
  simp only [Nat.zero_add] at hb hgl
  refine ⟨g, by simpa [List.length_map] using hgl, ?_⟩
  simp only [headerValue, hnm]
  rw [decrypt_header_step]
  rw [entriesAll_eq_pairs sp r.recipients_nonce_start true r.encryption_key r.mac_key]
  rw [h1, findRec_pairs_found pre _ b suf 0 h2]
  simp only [Nat.zero_add]
  rw [hb, decryptBody_honest]
  simp only [keysBundle, if_true, get_bundle_multi_ek, get_bundle_multi_mg,
    get_bundle_multi_mk]

/-- C2 amended: in a multi-group encoding, the blob splits around chunk
frame `j` exactly as written by the encoder (first conjunct), and if a
single bit of the first 16 bytes (the authenticator) of chunk `j`'s
ciphertext is flipped after encoding, then decryption by any listed
recipient fails with `macMismatch` — the MAC check runs and fails
before the chunk's symmetric decryption is trusted, whatever bytes
follow the tampered frame.  (A flip beyond the first 16 bytes instead
passes the MAC and fails authenticated decryption; see the
counterexample.) -/
theorem claim_C2_amended (sender_private : Nat) (groups_sk : List (List Nat)) (sk : Nat)
    (message : List Nat) (chunk_size : Nat) (r : Urandom)
    (j pos bit : Nat) (suffix : List Nat)
    (hG : 1 < groups_sk.length) (hsk : sk ∈ groups_sk.flatten) (hcs : 1 ≤ chunk_size)
    (hj : j < (chunks_with_empty message chunk_size).length) (hpos : pos < 16) :
    encrypt sender_private (groups_sk.map (List.map crypto_scalarmult_base))
        message chunk_size r =
      write_framed_msgpack (headerValue sender_private
        (groups_sk.map (List.map crypto_scalarmult_base)) r) ++
      (chunkFrames true ((List.range (groups_sk.map (List.map crypto_scalarmult_base)).length).map r.mac_key)
          r.encryption_key 0 ((chunks_with_empty message chunk_size).take j) ++
        (write_framed_msgpack (chunkRecord true
            ((List.range (groups_sk.map (List.map crypto_scalarmult_base)).length).map r.mac_key)
            r.encryption_key j ((chunks_with_empty message chunk_size).getD j [])) ++
          chunkFrames true ((List.range (groups_sk.map (List.map crypto_scalarmult_base)).length).map r.mac_key)
            r.encryption_key (j+1) ((chunks_with_empty message chunk_size).drop (j+1)))) ∧
    decrypt (write_framed_msgpack (headerValue sender_private
        (groups_sk.map (List.map crypto_scalarmult_base)) r) ++
      (chunkFrames true ((List.range (groups_sk.map (List.map crypto_scalarmult_base)).length).map r.mac_key)
          r.encryption_key 0 ((chunks_with_empty message chunk_size).take j) ++
        (write_framed_msgpack (tamperChunk (chunkRecord true
            ((List.range (groups_sk.map (List.map crypto_scalarmult_base)).length).map r.mac_key)
            r.encryption_key j ((chunks_with_empty message chunk_size).getD j [])) pos bit) ++
          suffix))) sk = .error .macMismatch := by
  have hLmap : (groups_sk.map (List.map crypto_scalarmult_base)).length = groups_sk.length :=
    List.length_map _ _
  have htj : ((chunks_with_empty message chunk_size).take j).length = j := by
    simp only [List.length_take]
    omega
  constructor
  · -- the encoder's blob, split at frame j
    have hnm : decide (1 < (groups_sk.map (List.map crypto_scalarmult_base)).length)
        = true := by simp [List.length_map]; omega
    have hds : (chunks_with_empty message chunk_size).drop j =
        (chunks_with_empty message chunk_size).getD j [] ::
          (chunks_with_empty message chunk_size).drop (j+1) := by
      rw [List.getD_eq_getElem _ _ hj]
      exact List.drop_eq_getElem_cons hj
    simp only [encrypt, hnm, if_true]
    conv_lhs => rw [← List.take_append_drop j (chunks_with_empty message chunk_size), hds]
    rw [chunkFrames_append, htj]
    simp [chunkFrames]
  · -- decrypting the tampered blob
    obtain ⟨front, hd1, hd2, hd3⟩ :=
      chunks_with_empty_decomp message.length message chunk_size (le_refl _) hcs
    obtain ⟨g, hgl, hred⟩ := decrypt_header_multi sender_private groups_sk sk r _ hG hsk
    rw [hred]
    have hfr : ∀ ch ∈ (chunks_with_empty message chunk_size).take j, ch ≠ [] := by
      intro ch hch
      apply hd3
      have hjf : j ≤ front.length := by
        have := congrArg List.length hd1
        simp at this
        omega
      rw [hd1, List.take_append_of_le_length hjf] at hch
      exact List.take_subset _ _ hch
    obtain ⟨L, hL⟩ : ∃ L, (chunkFrames true
        ((List.range (groups_sk.map (List.map crypto_scalarmult_base)).length).map r.mac_key)
        r.encryption_key 0 ((chunks_with_empty message chunk_size).take j) ++
      (write_framed_msgpack (tamperChunk (chunkRecord true
          ((List.range (groups_sk.map (List.map crypto_scalarmult_base)).length).map r.mac_key)
          r.encryption_key j ((chunks_with_empty message chunk_size).getD j [])) pos bit) ++
        suffix)).length = L := ⟨_, rfl⟩
    have hjL : j ≤ L := by
      have h1 := chunkFrames_length_ge true
        ((List.range (groups_sk.map (List.map crypto_scalarmult_base)).length).map r.mac_key)
        r.encryption_key 0 ((chunks_with_empty message chunk_size).take j)
      rw [htj] at h1
      simp only [List.length_append] at hL
      omega
    rw [hL]
    rw [decryptLoop_chunkFrames true _ r.encryption_key (some (.int g))
      (some (.bytes (r.mac_key g)))
      (fun k ch => macCheck_honest _ g r.mac_key _ (by omega))
      ((chunks_with_empty message chunk_size).take j) L 0 [] _ hfr (by rw [htj]; exact hjL)]
    rw [htj, Nat.zero_add, List.nil_append]
    obtain ⟨f', hf'⟩ : ∃ f', L - j = f' := ⟨_, rfl⟩
    rw [show L + 1 - j = f' + 1 by omega]
    have htc : tamperChunk (chunkRecord true
        ((List.range (groups_sk.map (List.map crypto_scalarmult_base)).length).map r.mac_key)
        r.encryption_key j ((chunks_with_empty message chunk_size).getD j [])) pos bit =
      .map (.cons (.str kMacs)
          (.arr (valueListOf (macsOf true
            ((List.range (groups_sk.map (List.map crypto_scalarmult_base)).length).map r.mac_key)
            (crypto_secretbox ((chunks_with_empty message chunk_size).getD j [])
              (to_bytes 24 j) r.encryption_key))))
        (.cons (.str kChunk)
          (.bytes (flipBit (crypto_secretbox ((chunks_with_empty message chunk_size).getD j [])
            (to_bytes 24 j) r.encryption_key) pos bit)) .nil)) := by
      simp [tamperChunk, chunkRecord]
    rw [htc]
    exact decryptLoop_tamper r.encryption_key
      (groups_sk.map (List.map crypto_scalarmult_base)).length g r.mac_key f' j
      ((chunks_with_empty message chunk_size).take j).flatten suffix _ _
      (by omega)
      (flipBit_take16_ne _ pos bit hpos
        (by rw [crypto_secretbox_length]; omega))

/-- Witness for the amended C2 at a concrete two-group blob: flipping
bit 0 of authenticator byte 3 of chunk 0 gives `macMismatch`. -/
theorem claim_C2_amended_witness :
    ((1 : Nat) < ([[5], [7]] : List (List Nat)).length ∧
      (5 : Nat) ∈ ([[5], [7]] : List (List Nat)).flatten ∧ (1 : Nat) ≤ 100 ∧
      0 < (chunks_with_empty [100, 200] 100).length ∧ (3 : Nat) < 16) ∧
    decrypt (write_framed_msgpack (headerValue 3
        (([[5], [7]] : List (List Nat)).map (List.map crypto_scalarmult_base))
        ⟨[1, 2], [9], fun g => [g + 1]⟩) ++
      (chunkFrames true ((List.range (([[5], [7]] : List (List Nat)).map
            (List.map crypto_scalarmult_base)).length).map (fun g => [g + 1]))
          [1, 2] 0 ((chunks_with_empty [100, 200] 100).take 0) ++
        (write_framed_msgpack (tamperChunk (chunkRecord true
            ((List.range (([[5], [7]] : List (List Nat)).map
              (List.map crypto_scalarmult_base)).length).map (fun g => [g + 1]))
            [1, 2] 0 ((chunks_with_empty [100, 200] 100).getD 0 [])) 3 0) ++
          []))) 5 = .error .macMismatch :=
  ⟨⟨by decide, by decide, by decide, by decide, by decide⟩,
    (claim_C2_amended 3 [[5], [7]] 5 [100, 200] 100 ⟨[1, 2], [9], fun g => [g + 1]⟩
      0 3 0 [] (by decide) (by decide) (by decide) (by decide) (by decide)).2⟩

set_option maxRecDepth 40000 in
/-- C2 counterexample: flipping a single bit of a chunk's ciphertext
does not always give `macMismatch` — flipping bit 0 of ciphertext byte
16 (the first byte after the 16-byte authenticator) of chunk 0 leaves
the stored authenticator untouched, so the MAC check passes, and the
failure is the symmetric primitive's `authFailure` instead.  The second
conjunct ties the tampered frame to the untampered blob the encoder
emits for the same inputs. -/
theorem claim_C2_counterexample :
    decrypt (write_framed_msgpack (headerValue 3
        (([[5], [7]] : List (List Nat)).map (List.map crypto_scalarmult_base))
        ⟨[1, 2], [9], fun g => [g + 1]⟩) ++
      (write_framed_msgpack (tamperChunk (chunkRecord true
          ((List.range 2).map (fun g => [g + 1])) [1, 2] 0 [100, 200]) 16 0) ++
        chunkFrames true ((List.range 2).map (fun g => [g + 1])) [1, 2] 1 [[]])) 5 =
      .error .authFailure ∧
    encrypt 3 (([[5], [7]] : List (List Nat)).map (List.map crypto_scalarmult_base))
        [100, 200] 100 ⟨[1, 2], [9], fun g => [g + 1]⟩ =
      write_framed_msgpack (headerValue 3
        (([[5], [7]] : List (List Nat)).map (List.map crypto_scalarmult_base))
        ⟨[1, 2], [9], fun g => [g + 1]⟩) ++
      (write_framed_msgpack (chunkRecord true
          ((List.range 2).map (fun g => [g + 1])) [1, 2] 0 [100, 200]) ++
        chunkFrames true ((List.range 2).map (fun g => [g + 1])) [1, 2] 1 [[]]) ∧
    DecErr.authFailure ≠ DecErr.macMismatch :=
  ⟨rfl, rfl, by decide⟩
